import Mathlib

/-!
Verification development for the `webarchive` Go package
(richardlehane/webarchive): a sequential reader for the WARC and ARC
web-archive container formats.

The shallow embedding below translates the package's reader core
(reader.go — provided as src/unnamed/part_001 —, warc.go, arc.go and
webarchive.go) into executable Lean definitions:

* a container is a `List Byte` (`Byte := Nat`);
* the `reader` struct becomes the `Rdr` structure; machine `int64`
  fields (`idx`, `thisIdx`, `sz`) are modelled as `Int` (their values
  never approach 2^63, so wrap-around is not modelled);
* a "slicer" source (`Slice(off, l)`) is modelled by `slicerSlice`:
  it returns the requested window truncated at the end of the data,
  with an end-of-stream flag alongside a short result;
* the buffered streaming source (`bufio.Reader`) is modelled by a
  read position `pos : Nat` into the same byte list;
* fallible operations return `Except Err` / `Option`; Go's
  `log.Fatal` and runtime panics (out-of-range indexing / slicing)
  are modelled by the `Err.fatal` outcome;
* gzip unwrapping is not modelled (the decompressor is an external
  collaborator); the claims under study concern uncompressed
  containers, and a gzip-magic container is mapped to the sentinel
  `Err.gzipSrc`.
-/

/-- Bytes are modelled as natural numbers. -/
abbrev Byte := Nat

/-- The newline byte, `'\n'`. -/
def NLb : Byte := 10

/-- ASCII whitespace test used by the `bytes.TrimSpace` model. -/
def isSpaceByte (b : Byte) : Bool :=
  b == 32 || b == 9 || b == 10 || b == 13 || b == 11 || b == 12

/-- Model of `bytes.TrimSpace` (ASCII whitespace). -/
def trimSpaceBytes (xs : List Byte) : List Byte :=
  ((xs.dropWhile isSpaceByte).reverse.dropWhile isSpaceByte).reverse

/-- Model of `bytes.IndexByte(buf, byte('\n'))`: index of the first newline. -/
def idxNL : List Byte → Option Nat
  | [] => none
  | b :: bs => if b == NLb then some 0 else (idxNL bs).map (fun n => n + 1)

/-- Model of `bytes.Split(buf, sep)` for a one-byte separator: split at every
occurrence, keeping empty fields.  The result is never the empty list. -/
def splitOnByte (sep : Byte) : List Byte → List (List Byte)
  | [] => [[]]
  | b :: bs =>
    if b == sep then [] :: splitOnByte sep bs
    else
      match splitOnByte sep bs with
      | [] => [[b]]
      | p :: ps => (b :: p) :: ps

/-- Model of `bytes.SplitN(buf, sep, 2)` for a one-byte separator. -/
def splitN2OnByte (sep : Byte) (xs : List Byte) : List (List Byte) :=
  match idxOf sep xs with
  | none => [xs]
  | some i => [xs.take i, xs.drop (i + 1)]
where
  /-- Index of the first occurrence of `sep`. -/
  idxOf (sep : Byte) : List Byte → Option Nat
    | [] => none
    | b :: bs => if b == sep then some 0 else (idxOf sep bs).map (fun n => n + 1)

/-- Interpret a byte list as a string (ASCII model of Go's `string(b)`). -/
def asString (xs : List Byte) : String :=
  String.mk (xs.map Char.ofNat)

/-- Errors of the package, modelling the distinct Go error values.
`eof` is `io.EOF`; `fatal` stands for `log.Fatal` aborts and runtime
panics (index out of range); `dateFormat` / `intFormat` are the parse
errors returned by `time.Parse` / `strconv`; `gzipSrc` is the sentinel
for the unmodelled gzip path. -/
inductive Err where
  | eof
  | notSlicer
  | warcHeader
  | warcRecord
  | versionBlock
  | arcHeader
  | notWebarchive
  | dateFormat
  | intFormat
  | fatal
  | gzipSrc
  deriving DecidableEq, Repr

/-- Model of a slicer source over `data` (the siegfried buffer contract,
spec §6): return the bytes of the window `[off, off+l)`, truncated at the
end of the data, with the end-of-stream flag set alongside a short
result.  A negative offset is out of range and yields an empty result
with the flag set. -/
def slicerSlice (data : List Byte) (off : Int) (l : Nat) : List Byte × Bool :=
  if off < 0 then ([], true)
  else ((data.drop off.toNat).take l, decide (off.toNat + l > data.length))

/-- Model of `bufio.Reader.Peek(n)` at read position `pos`: the next `n`
bytes without consuming them; the error flag is set when fewer than `n`
bytes remain. -/
def peekStream (data : List Byte) (pos : Nat) (n : Nat) : List Byte × Bool :=
  ((data.drop pos).take n, decide (pos + n > data.length))

/-- Model of `bufio.Reader.ReadBytes('\n')` at read position `pos`:
the consumed line (through the newline), the new position, and an
end-of-stream flag when no newline was found (the partial remainder is
still returned and consumed, as `bufio` does). -/
def readBytesNL (data : List Byte) (pos : Nat) : List Byte × Nat × Bool :=
  match idxNL (data.drop pos) with
  | some i => ((data.drop pos).take (i + 1), pos + i + 1, false)
  | none => (data.drop pos, data.length, true)

/-- The `reader` struct of reader.go, for an uncompressed source.
`pos` is the read position of the internal `bufio.Reader` (streaming
mode); `idx`, `thisIdx` and `sz` are the `int64` cursor fields. -/
structure Rdr where
  slicer : Bool
  pos : Nat
  idx : Int
  thisIdx : Int
  sz : Int
  deriving DecidableEq, Repr

/-- `newReader` / `reset` cursor state for an uncompressed source. -/
def Rdr.init (slicer : Bool) : Rdr :=
  { slicer := slicer, pos := 0, idx := 0, thisIdx := 0, sz := 0 }

/-- Model of `reader.peek(i)`: `Slice(r.idx, i)` on a slicer source,
`r.buf.Peek(i)` otherwise. -/
def readerPeek (data : List Byte) (r : Rdr) (i : Nat) : List Byte × Bool :=
  if r.slicer then slicerSlice data r.idx i
  else peekStream data r.pos i

/-- One widening-window pass of `reader.readLine` on a slicer source
(reader.go lines 196-216): search the window `Slice(idx, l)` for a
newline; on success consume through it; otherwise grow the window by
100 bytes, reporting `io.EOF` (`none`) when the window has run past the
end of the data without a newline.  `fuel` bounds the number of passes;
`rlSlLoop_spec` shows the fuel supplied by `readLineSl` suffices. -/
def rlSlLoop (data : List Byte) (idx : Int) : Nat → Nat → Option (List Byte × Int)
  | 0, _ => none
  | fuel + 1, l =>
    let slc := (slicerSlice data idx l).1
    let er := (slicerSlice data idx l).2
    match idxNL slc with
    | some i => some (slc.take (i + 1), idx + (i : Int) + 1)
    | none =>
      if er = true ∨ slc.length < l then none
      else rlSlLoop data idx fuel (l + 100)

/-- Model of `reader.readLine` on a slicer source: the consumed line
(through its newline) and the advanced `r.idx`; `none` is `io.EOF`. -/
def readLineSl (data : List Byte) (idx : Int) : Option (List Byte × Int) :=
  rlSlLoop data idx (data.length + 1) 100

/-- The index returned by `idxNL` lies inside the list. -/
theorem idxNL_lt_length : ∀ {xs : List Byte} {i : Nat}, idxNL xs = some i → i < xs.length := by
  intro xs
  induction xs with
  | nil => intro i h; simp [idxNL] at h
  | cons b bs ih =>
    intro i h
    simp only [idxNL] at h
    by_cases hb : (b == NLb) = true
    · rw [if_pos hb] at h
      injection h with h2
      simp only [List.length_cons]
      omega
    · rw [if_neg hb] at h
      cases hj : idxNL bs with
      | none => rw [hj] at h; simp at h
      | some j =>
        rw [hj] at h
        have hmap : Option.map (fun n => n + 1) (some j) = some (j + 1) := rfl
        rw [hmap] at h
        injection h with h2
        have := ih hj
        simp only [List.length_cons]
        omega

/-- The scan loop of `indexBlankLine` (reader.go lines 218-231): from
position `i`, jump from newline to newline until one closes a line of
fewer than 3 content bytes, returning the position just after it.
`fuel` bounds the passes (each consumes at least one byte);
`indexBlankLine` supplies enough. -/
def iblLoop (buf : List Byte) : Nat → Nat → Option Nat
  | 0, _ => none
  | fuel + 1, i =>
    match idxNL (buf.drop i) with
    | none => none
    | some k =>
      if k < 3 then some (i + k + 1)
      else iblLoop buf fuel (i + k + 1)

/-- Model of `indexBlankLine` (reader.go lines 218-231): the position just
after the first newline whose line has fewer than 3 bytes of content
before it; `none` when no such line is complete in `buf`. -/
def indexBlankLine (buf : List Byte) : Option Nat :=
  iblLoop buf (buf.length + 1) 0

/-- `iblLoop` ignores the exact fuel once it covers the bytes left of the
scan position. -/
theorem iblLoop_fuel : ∀ (f1 f2 : Nat) {buf : List Byte} (i : Nat),
    buf.length - i ≤ f1 → buf.length - i ≤ f2 → iblLoop buf f1 i = iblLoop buf f2 i := by
  intro f1
  induction f1 with
  | zero =>
    intro f2 buf i h1 h2
    have hd : buf.drop i = [] := List.drop_eq_nil_of_le (by omega)
    cases f2 with
    | zero => rfl
    | succ f2 =>
      show iblLoop buf 0 i = iblLoop buf (f2 + 1) i
      simp only [iblLoop, hd, idxNL]
  | succ f1 ih =>
    intro f2 buf i h1 h2
    by_cases hlen : buf.length ≤ i
    · have hd : buf.drop i = [] := List.drop_eq_nil_of_le hlen
      cases f2 with
      | zero => simp only [iblLoop, hd, idxNL]
      | succ f2 => simp only [iblLoop, hd, idxNL]
    · cases f2 with
      | zero => omega
      | succ f2 =>
        simp only [iblLoop]
        cases hk : idxNL (buf.drop i) with
        | none => rfl
        | some k =>
          by_cases h3 : k < 3
          · simp only [if_pos h3]
          · simp only [if_neg h3]
            have hkl := idxNL_lt_length hk
            simp only [List.length_drop] at hkl
            exact ih f2 (i + k + 1) (by omega) (by omega)

/-- Position-shift form of `iblLoop`: scanning from `j` is scanning the
dropped buffer from `0`, offset by `j`. -/
theorem iblLoop_shift : ∀ (fuel : Nat) {buf : List Byte} (j : Nat),
    iblLoop buf fuel j = (iblLoop (buf.drop j) fuel 0).map (fun t => j + t) := by
  intro fuel
  induction fuel with
  | zero => intro buf j; rfl
  | succ fuel ih =>
    intro buf j
    simp only [iblLoop, List.drop_zero]
    cases hk : idxNL (buf.drop j) with
    | none => rfl
    | some k =>
      by_cases h3 : k < 3
      · simp only [if_pos h3, Option.map_some']
        congr 1
        omega
      · simp only [if_neg h3]
        simp only [Nat.zero_add]
        rw [ih (j + k + 1), @ih (buf.drop j) (k + 1)]
        rw [List.drop_drop, Option.map_map]
        simp only [← Nat.add_assoc]
        cases iblLoop (buf.drop (j + k + 1)) fuel 0 with
        | none => rfl
        | some t =>
          simp only [Option.map_some', Function.comp]
          congr 1
          omega

/-- One widening-window pass of `reader.storeLines` on a slicer source
(reader.go lines 236-256): search the window `Slice(idx, l)` for the
blank-line terminator via `indexBlankLine`; grow the window by 1000
bytes; `none` is the `io.EOF` outcome (empty window, or window past the
end of data with no terminator).  On success the result is the number
of bytes consumed.  `slSlLoop_spec` shows the fuel supplied suffices. -/
def slSlLoop (data : List Byte) (idx : Int) : Nat → Nat → Option Nat
  | 0, _ => none
  | fuel + 1, l =>
    let slc := (slicerSlice data idx l).1
    if slc.length = 0 then none
    else
      match indexBlankLine slc with
      | some bi => some bi
      | none =>
        if slc.length < l then none
        else slSlLoop data idx fuel (l + 1000)

/-- The blank-line scan of `reader.storeLines` on a slicer source:
number of bytes consumed through the terminator, or `none` for `io.EOF`. -/
def storeScanSl (data : List Byte) (idx : Int) : Option Nat :=
  slSlLoop data idx (data.length + 1) 1000

/-- The accumulation loop of `reader.storeLines` on a buffered streaming
source (reader.go lines 262-282): read whole lines until one of fewer
than 3 bytes (including its newline) arrives; on an end-of-stream error
the partial line is consumed but dropped, and the error is reported.
Returns (accumulated bytes, new position, error flag).  `fuel` bounds
the passes (each consumes at least one byte); every caller supplies
`data.length + 1`, which always suffices. -/
def stStLoop (data : List Byte) : Nat → Nat → List Byte → List Byte × Nat × Bool
  | 0, pos, acc => (acc, pos, true)
  | fuel + 1, pos, acc =>
    match idxNL (data.drop pos) with
    | none => (acc, data.length, true)
    | some i =>
      let slc := (data.drop pos).take (i + 1)
      let acc2 := acc ++ slc
      if i + 1 < 3 then (acc2, pos + i + 1, false)
      else stStLoop data fuel (pos + i + 1) acc2

/-- Model of `reader.storeLines(i, alter)` (reader.go lines 235-283).
`fieldsPrefix` is the `i` bytes that precede the scan (the contents of
`r.store[:i]` in streaming mode; in slicer mode only its length is
used, as the source re-slices from `r.idx - i`).  Returns the block
(always, since Go returns a partial block alongside an error), the
error if any, and the updated reader. -/
def readerStoreLines (data : List Byte) (r : Rdr) (fieldsPrefix : List Byte)
    (alter : Bool) : (List Byte × Option Err) × Rdr :=
  if r.slicer then
    let start := r.idx - (fieldsPrefix.length : Int)
    match storeScanSl data r.idx with
    | some bi =>
      let idx' := r.idx + (bi : Int)
      let r' : Rdr := { r with idx := idx', sz := if alter then r.sz - (bi : Int) else r.sz }
      let (slc, er) := slicerSlice data start (idx' - start).toNat
      ((slc, if er then some Err.eof else none), r')
    | none => (([], some Err.eof), r)
  else
    let (cons, pos', er) := stStLoop data (data.length + 1) r.pos []
    if er then ((fieldsPrefix ++ cons, some Err.eof), { r with pos := pos' })
    else
      let r' : Rdr := { r with pos := pos',
                               sz := if alter then r.sz - (cons.length : Int) else r.sz }
      ((fieldsPrefix ++ cons, none), r')

/-- Model of `reader.readLine` (both modes): the consumed line and the
advanced reader; `Err.eof` when no newline is found before the end of
data (streaming mode still returns and consumes the partial line). -/
def readerReadLine (data : List Byte) (r : Rdr) : (List Byte × Option Err) × Rdr :=
  if r.slicer then
    match readLineSl data r.idx with
    | some (ln, idx') => ((ln, none), { r with idx := idx' })
    | none => (([], some Err.eof), r)
  else
    let (slc, pos', er) := readBytesNL data r.pos
    ((slc, if er then some Err.eof else none), { r with pos := pos' })

/-- The blank-line-skipping loop of `reader.next` (reader.go lines
190-191): read lines until a non-blank one or an error.  `fuel` bounds
the iterations (each consumes at least one byte); exhaustion is the
`Err.fatal` outcome and is unreachable with the fuel supplied by
`readerNext`. -/
def skipBlankLoop (data : List Byte) : Nat → Rdr → (List Byte × Option Err) × Rdr
  | 0, r => (([], some Err.fatal), r)
  | fuel + 1, r =>
    let ((slc, er), r') := readerReadLine data r
    match er with
    | some e => ((slc, some e), r')
    | none =>
      if (trimSpaceBytes slc).length = 0 then skipBlankLoop data fuel r'
      else ((slc, none), r')

/-- Model of `reader.next` (reader.go lines 180-193): advance `idx` by
`sz`; in streaming mode discard the unread remainder of the previous
record (a shortfall is `log.Fatal`, modelled as `Err.fatal`); then
return the first non-blank line. -/
def readerNext (data : List Byte) (r : Rdr) : (List Byte × Option Err) × Rdr :=
  let r1 : Rdr := { r with idx := r.idx + r.sz }
  if r1.thisIdx < r1.sz ∧ r1.slicer = false then
    let amt := (r1.sz - r1.thisIdx).toNat
    if r1.pos + amt ≤ data.length then
      skipBlankLoop data (data.length + 1) { r1 with pos := r1.pos + amt }
    else (([], some Err.fatal), r1)
  else
    skipBlankLoop data (data.length + 1) r1

/-- Model of `reader.Read` (reader.go lines 44-59): clamp the request to
`sz - thisIdx`, advance `thisIdx` by the clamped amount, then fetch the
bytes (buffered `fullRead` in streaming mode; a `Slice` at
`idx + thisIdx - l` in slicer mode). -/
def readerRead (data : List Byte) (r : Rdr) (plen : Nat) : (List Byte × Option Err) × Rdr :=
  if r.thisIdx ≥ r.sz then (([], some Err.eof), r)
  else
    let l : Int := if (plen : Int) > r.sz - r.thisIdx then r.sz - r.thisIdx else (plen : Int)
    let r' : Rdr := { r with thisIdx := r.thisIdx + l }
    if r.slicer = false then
      let ln := l.toNat
      let k := min ln (data.length - r.pos)
      (((data.drop r.pos).take k,
        if data.length - r.pos < ln then some Err.eof else none),
       { r' with pos := r.pos + k })
    else
      let (buf, er) := slicerSlice data (r.idx + r'.thisIdx - l) l.toNat
      ((buf, if er then some Err.eof else none), r')

/-- Model of `reader.Slice` (reader.go lines 61-77). -/
def readerSlice (data : List Byte) (r : Rdr) (off : Int) (l : Nat) :
    List Byte × Option Err :=
  if r.slicer = false then ([], some Err.notSlicer)
  else if off ≥ r.sz then ([], some Err.eof)
  else
    let le : Nat × Option Err :=
      if (l : Int) > r.sz - off then ((r.sz - off).toNat, some Err.eof) else (l, none)
    let (slc, er1) := slicerSlice data (r.idx + off) le.1
    (slc, if er1 then some Err.eof else le.2)

/-- Model of `reader.EofSlice` (reader.go lines 79-97): a bounded slice
measured from the end of the current record. -/
def readerEofSlice (data : List Byte) (r : Rdr) (off : Int) (l : Nat) :
    List Byte × Option Err :=
  if r.slicer = false then ([], some Err.notSlicer)
  else if off ≥ r.sz then ([], some Err.eof)
  else
    let loe : Nat × Int × Option Err :=
      if (l : Int) > r.sz - off then ((r.sz - off).toNat, 0, some Err.eof)
      else (l, r.sz - off - (l : Int), none)
    let (slc, er1) := slicerSlice data (r.idx + loe.2.1) loe.1
    (slc, if er1 then some Err.eof else loe.2.2)

/-- Unfolding of `indexBlankLine` when the buffer has no newline. -/
theorem indexBlankLine_none {buf : List Byte} (h : idxNL buf = none) :
    indexBlankLine buf = none := by
  show iblLoop buf (buf.length + 1) 0 = none
  simp only [iblLoop, List.drop_zero, h]

/-- Unfolding of `indexBlankLine` when the buffer has a first newline. -/
theorem indexBlankLine_some {buf : List Byte} {i : Nat} (h : idxNL buf = some i) :
    indexBlankLine buf =
      (if i < 3 then some (i + 1)
       else (indexBlankLine (buf.drop (i + 1))).map (fun j => i + 1 + j)) := by
  have hi := idxNL_lt_length h
  show iblLoop buf (buf.length + 1) 0 = _
  simp only [iblLoop, List.drop_zero, h]
  by_cases h3 : i < 3
  · simp only [if_pos h3]
    congr 1
    omega
  · simp only [if_neg h3]
    rw [iblLoop_shift buf.length (0 + i + 1)]
    have hz : 0 + i + 1 = i + 1 := by omega
    rw [hz]
    unfold indexBlankLine
    rw [iblLoop_fuel buf.length ((buf.drop (i + 1)).length + 1) 0
      (by simp only [List.length_drop]; omega) (by omega)]

/-- A window that extends past the first newline still finds it. -/
theorem idxNL_take_lt : ∀ {xs : List Byte} {i l : Nat}, idxNL xs = some i → i < l →
    idxNL (xs.take l) = some i := by
  intro xs
  induction xs with
  | nil => intro i l h _; simp [idxNL] at h
  | cons b bs ih =>
    intro i l h hl
    match l, hl with
    | l + 1, hl =>
      simp only [List.take_succ_cons]
      simp only [idxNL] at h ⊢
      by_cases hb : (b == NLb) = true
      · rw [if_pos hb] at h ⊢; exact h
      · rw [if_neg hb] at h ⊢
        cases hj : idxNL bs with
        | none => rw [hj] at h; simp at h
        | some j =>
          rw [hj] at h
          have hmap : Option.map (fun n => n + 1) (some j) = some (j + 1) := rfl
          rw [hmap] at h
          injection h with h2
          subst h2
          rw [ih hj (by omega)]
          rfl

/-- A window of a newline-free buffer is newline-free. -/
theorem idxNL_take_none : ∀ {xs : List Byte}, idxNL xs = none → ∀ (l : Nat),
    idxNL (xs.take l) = none := by
  intro xs
  induction xs with
  | nil => intro _ l; simp [List.take_nil, idxNL]
  | cons b bs ih =>
    intro h l
    cases l with
    | zero => simp [idxNL]
    | succ l =>
      simp only [List.take_succ_cons]
      simp only [idxNL] at h ⊢
      by_cases hb : (b == NLb) = true
      · rw [if_pos hb] at h; cases h
      · rw [if_neg hb] at h ⊢
        cases hj : idxNL bs with
        | none => rw [ih hj l]; rfl
        | some j => rw [hj] at h; simp at h

/-- A window that stops at or before the first newline misses it. -/
theorem idxNL_take_ge : ∀ {xs : List Byte} {i l : Nat}, idxNL xs = some i → l ≤ i →
    idxNL (xs.take l) = none := by
  intro xs
  induction xs with
  | nil => intro i l h _; simp [idxNL] at h
  | cons b bs ih =>
    intro i l h hl
    cases l with
    | zero => simp [idxNL]
    | succ l =>
      simp only [List.take_succ_cons]
      simp only [idxNL] at h ⊢
      by_cases hb : (b == NLb) = true
      · rw [if_pos hb] at h; injection h with h2; omega
      · rw [if_neg hb] at h ⊢
        cases hj : idxNL bs with
        | none => rw [hj] at h; simp at h
        | some j =>
          rw [hj] at h
          have hmap : Option.map (fun n => n + 1) (some j) = some (j + 1) := rfl
          rw [hmap] at h
          injection h with h2
          rw [ih hj (by omega)]
          rfl

/-- The position returned by `indexBlankLine` lies within the buffer. -/
theorem indexBlankLine_le_length : ∀ (n : Nat) {xs : List Byte} {j : Nat},
    xs.length ≤ n → indexBlankLine xs = some j → j ≤ xs.length := by
  intro n
  induction n with
  | zero =>
    intro xs j hn h
    have hx : xs = [] := List.eq_nil_of_length_eq_zero (by omega)
    subst hx
    rw [indexBlankLine_none (by simp [idxNL])] at h
    cases h
  | succ n ih =>
    intro xs j hn h
    cases hi : idxNL xs with
    | none => rw [indexBlankLine_none hi] at h; cases h
    | some i =>
      have hlt := idxNL_lt_length hi
      rw [indexBlankLine_some hi] at h
      by_cases h3 : i < 3
      · rw [if_pos h3] at h; injection h with h2; omega
      · rw [if_neg h3] at h
        cases hj : indexBlankLine (xs.drop (i + 1)) with
        | none => rw [hj] at h; cases h
        | some j2 =>
          rw [hj] at h
          have hmap : Option.map (fun j => i + 1 + j) (some j2) = some (i + 1 + j2) := rfl
          rw [hmap] at h
          injection h with h2
          have hrec := @ih (xs.drop (i + 1)) j2 (by simp [List.length_drop]; omega) hj
          simp only [List.length_drop] at hrec
          omega

/-- A window extending to the blank-line terminator still finds it. -/
theorem indexBlankLine_take_some : ∀ (n : Nat) {xs : List Byte} {j l : Nat},
    xs.length ≤ n → indexBlankLine xs = some j → j ≤ l →
    indexBlankLine (xs.take l) = some j := by
  intro n
  induction n with
  | zero =>
    intro xs j l hn h _
    have hx : xs = [] := List.eq_nil_of_length_eq_zero (by omega)
    subst hx
    rw [indexBlankLine_none (by simp [idxNL])] at h
    cases h
  | succ n ih =>
    intro xs j l hn h hl
    cases hi : idxNL xs with
    | none => rw [indexBlankLine_none hi] at h; cases h
    | some i =>
      have hlt := idxNL_lt_length hi
      rw [indexBlankLine_some hi] at h
      by_cases h3 : i < 3
      · rw [if_pos h3] at h
        injection h with h2
        subst h2
        have hi2 : idxNL (xs.take l) = some i := idxNL_take_lt hi (by omega)
        rw [indexBlankLine_some hi2, if_pos h3]
      · rw [if_neg h3] at h
        cases hj : indexBlankLine (xs.drop (i + 1)) with
        | none => rw [hj] at h; cases h
        | some j2 =>
          rw [hj] at h
          have hmap : Option.map (fun j => i + 1 + j) (some j2) = some (i + 1 + j2) := rfl
          rw [hmap] at h
          injection h with h2
          subst h2
          have hjlen := indexBlankLine_le_length (xs.drop (i + 1)).length (le_refl _) hj
          simp only [List.length_drop] at hjlen
          have hi2 : idxNL (xs.take l) = some i := idxNL_take_lt hi (by omega)
          rw [indexBlankLine_some hi2, if_neg h3]
          rw [List.drop_take]
          rw [@ih (xs.drop (i + 1)) j2 (l - (i + 1)) (by simp [List.length_drop]; omega) hj (by omega)]
          rfl

/-- A buffer without a blank-line terminator has none in any window. -/
theorem indexBlankLine_take_none : ∀ (n : Nat) {xs : List Byte},
    xs.length ≤ n → indexBlankLine xs = none → ∀ (l : Nat),
    indexBlankLine (xs.take l) = none := by
  intro n
  induction n with
  | zero =>
    intro xs hn _ l
    have hx : xs = [] := List.eq_nil_of_length_eq_zero (by omega)
    subst hx
    rw [List.take_nil]
    exact indexBlankLine_none (by simp [idxNL])
  | succ n ih =>
    intro xs hn h l
    cases hi : idxNL xs with
    | none => exact indexBlankLine_none (idxNL_take_none hi l)
    | some i =>
      have hlt := idxNL_lt_length hi
      rw [indexBlankLine_some hi] at h
      by_cases h3 : i < 3
      · rw [if_pos h3] at h; cases h
      · rw [if_neg h3] at h
        have hj : indexBlankLine (xs.drop (i + 1)) = none := by
          cases hj2 : indexBlankLine (xs.drop (i + 1)) with
          | none => rfl
          | some j2 => rw [hj2] at h; cases h
        by_cases hil : i < l
        · have hi2 : idxNL (xs.take l) = some i := idxNL_take_lt hi hil
          rw [indexBlankLine_some hi2, if_neg h3, List.drop_take]
          rw [@ih (xs.drop (i + 1)) (by simp [List.length_drop]; omega) hj (l - (i + 1))]
          rfl
        · exact indexBlankLine_none (idxNL_take_ge hi (by omega))

/-- A window that stops before the blank-line terminator misses it. -/
theorem indexBlankLine_take_lt : ∀ (n : Nat) {xs : List Byte} {j l : Nat},
    xs.length ≤ n → indexBlankLine xs = some j → l < j →
    indexBlankLine (xs.take l) = none := by
  intro n
  induction n with
  | zero =>
    intro xs j l hn h _
    have hx : xs = [] := List.eq_nil_of_length_eq_zero (by omega)
    subst hx
    rw [indexBlankLine_none (by simp [idxNL])] at h
    cases h
  | succ n ih =>
    intro xs j l hn h hl
    cases hi : idxNL xs with
    | none => rw [indexBlankLine_none hi] at h; cases h
    | some i =>
      have hlt := idxNL_lt_length hi
      rw [indexBlankLine_some hi] at h
      by_cases h3 : i < 3
      · rw [if_pos h3] at h
        injection h with h2
        subst h2
        exact indexBlankLine_none (idxNL_take_ge hi (by omega))
      · rw [if_neg h3] at h
        cases hj : indexBlankLine (xs.drop (i + 1)) with
        | none => rw [hj] at h; cases h
        | some j2 =>
          rw [hj] at h
          have hmap : Option.map (fun j => i + 1 + j) (some j2) = some (i + 1 + j2) := rfl
          rw [hmap] at h
          injection h with h2
          subst h2
          by_cases hil : i < l
          · have hi2 : idxNL (xs.take l) = some i := idxNL_take_lt hi hil
            rw [indexBlankLine_some hi2, if_neg h3, List.drop_take]
            rw [@ih (xs.drop (i + 1)) j2 (l - (i + 1)) (by simp [List.length_drop]; omega) hj (by omega)]
            rfl
          · exact indexBlankLine_none (idxNL_take_ge hi (by omega))

/-- One-step unfolding of `rlSlLoop`. -/
theorem rlSlLoop_succ (data : List Byte) (idx : Int) (fuel l : Nat) :
    rlSlLoop data idx (fuel + 1) l =
      (match idxNL (slicerSlice data idx l).1 with
       | some i => some ((slicerSlice data idx l).1.take (i + 1), idx + (i : Int) + 1)
       | none =>
         if (slicerSlice data idx l).2 = true ∨ (slicerSlice data idx l).1.length < l then none
         else rlSlLoop data idx fuel (l + 100)) := rfl

/-- With enough fuel, the widening-window line read finds the first
newline at or after `idx` and consumes through it. -/
theorem rlSlLoop_found : ∀ (fuel : Nat) {data : List Byte} {idx : Int} {i : Nat} (l : Nat),
    0 ≤ idx → idxNL (data.drop idx.toNat) = some i → i < l + 100 * fuel →
    rlSlLoop data idx (fuel + 1) l =
      some ((data.drop idx.toNat).take (i + 1), idx + (i : Int) + 1) := by
  intro fuel
  induction fuel with
  | zero =>
    intro data idx i l h0 h hil
    simp only [Nat.mul_zero, Nat.add_zero] at hil
    rw [rlSlLoop_succ]
    simp only [slicerSlice, if_neg (not_lt.mpr h0)]
    split
    · rename_i j hj
      rw [idxNL_take_lt h hil] at hj
      injection hj with hj
      subst hj
      rw [List.take_take, min_eq_left (by omega)]
    · rename_i hnone
      rw [idxNL_take_lt h hil] at hnone
      cases hnone
  | succ fuel ih =>
    intro data idx i l h0 h hil
    by_cases hl : i < l
    · rw [rlSlLoop_succ]
      simp only [slicerSlice, if_neg (not_lt.mpr h0)]
      split
      · rename_i j hj
        rw [idxNL_take_lt h hl] at hj
        injection hj with hj
        subst hj
        rw [List.take_take, min_eq_left (by omega)]
      · rename_i hnone
        rw [idxNL_take_lt h hl] at hnone
        cases hnone
    · have hlen := idxNL_lt_length h
      simp only [List.length_drop] at hlen
      rw [rlSlLoop_succ]
      simp only [slicerSlice, if_neg (not_lt.mpr h0)]
      split
      · rename_i j hj
        rw [idxNL_take_ge h (by omega)] at hj
        cases hj
      · rw [if_neg (by
          simp only [List.length_take, List.length_drop, decide_eq_true_eq]
          push_neg
          exact ⟨by omega, by omega⟩)]
        exact ih (l + 100) h0 h (by omega)

/-- The widening-window line read reports `io.EOF` when there is no
newline at or after `idx` (or the offset is out of range). -/
theorem rlSlLoop_none_of : ∀ (fuel : Nat) {data : List Byte} {idx : Int} (l : Nat),
    (idx < 0 ∨ idxNL (data.drop idx.toNat) = none) →
    rlSlLoop data idx fuel l = none := by
  intro fuel
  induction fuel with
  | zero => intro data idx l _; rfl
  | succ fuel ih =>
    intro data idx l h
    by_cases h0 : idx < 0
    · rw [rlSlLoop_succ]
      simp only [slicerSlice, if_pos h0]
      split
      · rename_i j hj
        simp [idxNL] at hj
      · simp
    · have hnone : idxNL (data.drop idx.toNat) = none := by
        cases h with
        | inl hneg => exact absurd hneg h0
        | inr hx => exact hx
      rw [rlSlLoop_succ]
      simp only [slicerSlice, if_neg h0]
      split
      · rename_i j hj
        rw [idxNL_take_none hnone l] at hj
        cases hj
      · split
        · rfl
        · exact ih (l + 100) (Or.inr hnone)

/-- `readLineSl` finds the first newline at or after a nonnegative `idx`. -/
theorem readLineSl_some {data : List Byte} {idx : Int} {i : Nat}
    (h0 : 0 ≤ idx) (h : idxNL (data.drop idx.toNat) = some i) :
    readLineSl data idx = some ((data.drop idx.toNat).take (i + 1), idx + (i : Int) + 1) := by
  have hlen := idxNL_lt_length h
  simp only [List.length_drop] at hlen
  exact rlSlLoop_found data.length 100 h0 h (by omega)

/-- `readLineSl` is `io.EOF` when no newline remains. -/
theorem readLineSl_none {data : List Byte} {idx : Int}
    (h : idx < 0 ∨ idxNL (data.drop idx.toNat) = none) :
    readLineSl data idx = none :=
  rlSlLoop_none_of (data.length + 1) 100 h

/-- One-step unfolding of `slSlLoop`. -/
theorem slSlLoop_succ (data : List Byte) (idx : Int) (fuel l : Nat) :
    slSlLoop data idx (fuel + 1) l =
      (if (slicerSlice data idx l).1.length = 0 then none
       else
         match indexBlankLine (slicerSlice data idx l).1 with
         | some bi => some bi
         | none =>
           if (slicerSlice data idx l).1.length < l then none
           else slSlLoop data idx fuel (l + 1000)) := rfl

/-- With enough fuel, the widening-window header-block scan finds the
blank-line terminator at or after `idx`. -/
theorem slSlLoop_found : ∀ (fuel : Nat) {data : List Byte} {idx : Int} {bi : Nat} (l : Nat),
    0 ≤ idx → indexBlankLine (data.drop idx.toNat) = some bi → bi ≤ l + 1000 * fuel → 1 ≤ l →
    slSlLoop data idx (fuel + 1) l = some bi := by
  intro fuel
  induction fuel with
  | zero =>
    intro data idx bi l h0 h hbl h1
    simp only [Nat.mul_zero, Nat.add_zero] at hbl
    have hD : ∃ i, idxNL (data.drop idx.toNat) = some i := by
      cases hi : idxNL (data.drop idx.toNat) with
      | none => rw [indexBlankLine_none hi] at h; cases h
      | some i => exact ⟨i, rfl⟩
    obtain ⟨i, hi⟩ := hD
    have hlen := idxNL_lt_length hi
    simp only [List.length_drop] at hlen
    rw [slSlLoop_succ]
    simp only [slicerSlice, if_neg (not_lt.mpr h0)]
    rw [if_neg (by simp only [List.length_take, List.length_drop]; omega)]
    split
    · rename_i j hj
      rw [indexBlankLine_take_some (data.drop idx.toNat).length (le_refl _) h hbl] at hj
      injection hj with hj
      subst hj
      rfl
    · rename_i hnone
      rw [indexBlankLine_take_some (data.drop idx.toNat).length (le_refl _) h hbl] at hnone
      cases hnone
  | succ fuel ih =>
    intro data idx bi l h0 h hbl h1
    have hD : ∃ i, idxNL (data.drop idx.toNat) = some i := by
      cases hi : idxNL (data.drop idx.toNat) with
      | none => rw [indexBlankLine_none hi] at h; cases h
      | some i => exact ⟨i, rfl⟩
    obtain ⟨i, hi⟩ := hD
    have hlen := idxNL_lt_length hi
    simp only [List.length_drop] at hlen
    by_cases hl : bi ≤ l
    · rw [slSlLoop_succ]
      simp only [slicerSlice, if_neg (not_lt.mpr h0)]
      rw [if_neg (by simp only [List.length_take, List.length_drop]; omega)]
      split
      · rename_i j hj
        rw [indexBlankLine_take_some (data.drop idx.toNat).length (le_refl _) h hl] at hj
        injection hj with hj
        subst hj
        rfl
      · rename_i hnone
        rw [indexBlankLine_take_some (data.drop idx.toNat).length (le_refl _) h hl] at hnone
        cases hnone
    · have hbil := indexBlankLine_le_length (data.drop idx.toNat).length (le_refl _) h
      simp only [List.length_drop] at hbil
      rw [slSlLoop_succ]
      simp only [slicerSlice, if_neg (not_lt.mpr h0)]
      rw [if_neg (by simp only [List.length_take, List.length_drop]; omega)]
      split
      · rename_i j hj
        rw [indexBlankLine_take_lt (data.drop idx.toNat).length (le_refl _) h (by omega)] at hj
        cases hj
      · rw [if_neg (by simp only [List.length_take, List.length_drop]; omega)]
        exact ih (l + 1000) h0 h (by omega) (by omega)

/-- The widening-window header-block scan reports `io.EOF` when there is
no blank-line terminator at or after `idx` (or the offset is out of
range). -/
theorem slSlLoop_none_of : ∀ (fuel : Nat) {data : List Byte} {idx : Int} (l : Nat),
    (idx < 0 ∨ indexBlankLine (data.drop idx.toNat) = none) →
    slSlLoop data idx fuel l = none := by
  intro fuel
  induction fuel with
  | zero => intro data idx l _; rfl
  | succ fuel ih =>
    intro data idx l h
    by_cases h0 : idx < 0
    · rw [slSlLoop_succ]
      simp only [slicerSlice, if_pos h0]
      simp
    · have hnone : indexBlankLine (data.drop idx.toNat) = none := by
        cases h with
        | inl hneg => exact absurd hneg h0
        | inr hx => exact hx
      rw [slSlLoop_succ]
      simp only [slicerSlice, if_neg h0]
      by_cases hz : ((data.drop idx.toNat).take l).length = 0
      · rw [if_pos hz]
      · rw [if_neg hz]
        split
        · rename_i j hj
          rw [indexBlankLine_take_none (data.drop idx.toNat).length (le_refl _) hnone l] at hj
          cases hj
        · split
          · rfl
          · exact ih (l + 1000) (Or.inr hnone)

/-- `storeScanSl` finds the blank-line terminator at or after a
nonnegative `idx`. -/
theorem storeScanSl_some {data : List Byte} {idx : Int} {bi : Nat}
    (h0 : 0 ≤ idx) (h : indexBlankLine (data.drop idx.toNat) = some bi) :
    storeScanSl data idx = some bi := by
  have hbil := indexBlankLine_le_length (data.drop idx.toNat).length (le_refl _) h
  simp only [List.length_drop] at hbil
  exact slSlLoop_found data.length 1000 h0 h (by omega) (by omega)

/-- `storeScanSl` is `io.EOF` when no blank-line terminator remains. -/
theorem storeScanSl_none {data : List Byte} {idx : Int}
    (h : idx < 0 ∨ indexBlankLine (data.drop idx.toNat) = none) :
    storeScanSl data idx = none :=
  slSlLoop_none_of (data.length + 1) 1000 h

/-- Model of `readline` (reader.go lines 296-306): one line without its
newline, plus the advance to the next line (`0` when the buffer is
exhausted by this line). -/
def readlineGo (buf : List Byte) : List Byte × Nat :=
  match idxNL buf with
  | none => (buf, 0)
  | some nl => if nl = buf.length - 1 then (buf.take nl, 0) else (buf.take nl, nl + 1)

/-- Model of `skipspace` (reader.go lines 308-320): the number of leading
space or tab bytes. -/
def skipspaceGo (buf : List Byte) : Nat :=
  (buf.takeWhile (fun c => c == 32 || c == 9)).length

/-- The continuation-folding loop inside the `getLines` closure
(reader.go lines 334-343): while the buffer starts with space or tab,
append the next line to `ret` joined by a single space.  Returns the
folded line and the remaining buffer (`none` when the buffer was
exhausted).  `fuel` bounds the passes (each consumes at least one
byte); every caller supplies the buffer length plus one, which always
suffices. -/
def foldCont : Nat → List Byte → List Byte → List Byte × Option (List Byte)
  | 0, ret, _ => (ret, none)
  | fuel + 1, ret, buf =>
    if skipspaceGo buf = 0 then (ret, some buf)
    else
      let buf1 := buf.drop (skipspaceGo buf)
      let r := readlineGo buf1
      let ret1 := (ret ++ [32]) ++ r.1
      if r.2 = 0 then (ret1, none)
      else foldCont fuel ret1 (buf1.drop r.2)

/-- The advance returned by `readline` stays within the buffer. -/
theorem readlineGo_snd_le (buf : List Byte) : (readlineGo buf).2 ≤ buf.length := by
  unfold readlineGo
  cases h : idxNL buf with
  | none => simp
  | some nl =>
    have := idxNL_lt_length h
    by_cases h2 : nl = buf.length - 1
    · simp [h2]
    · simp only [if_neg h2]
      omega

/-- Model of the `getLines` closure iterated to exhaustion (reader.go
lines 322-346): the list of logical lines of a header block, with
continuation lines (leading space or tab) folded into the previous line
joined by a single space. -/
def foldedLinesF : Nat → List Byte → List (List Byte)
  | 0, _ => []
  | fuel + 1, buf =>
    if (readlineGo buf).2 = 0 then [(readlineGo buf).1]
    else
      match foldCont (buf.length + 1) (readlineGo buf).1 (buf.drop (readlineGo buf).2) with
      | (line, none) => [line]
      | (line, some buf2) => line :: foldedLinesF fuel buf2

/-- The `getLines` iterator run to exhaustion, with enough fuel for any
buffer (each yielded line consumes at least one byte). -/
def foldedLines (buf : List Byte) : List (List Byte) :=
  foldedLinesF (buf.length + 1) buf

/-- ASCII lower-casing of one byte (model of `strings.ToLower`). -/
def toLowerByte (b : Byte) : Byte :=
  if 65 ≤ b ∧ b ≤ 90 then b + 32 else b

/-- ASCII upper-casing of one byte. -/
def toUpperByte (b : Byte) : Byte :=
  if 97 ≤ b ∧ b ≤ 122 then b - 32 else b

/-- Word-separator test of Go's `strings.Title` (ASCII model): letters,
digits and underscore do not separate words; everything else does. -/
def isSepByte (b : Byte) : Bool :=
  !((65 ≤ b && b ≤ 90) || (97 ≤ b && b ≤ 122) || (48 ≤ b && b ≤ 57) || b == 95)

/-- Model of `strings.Title` (ASCII): upper-case every letter that begins
a word; `prevSep` records whether the previous byte was a separator. -/
def goTitle : List Byte → Bool → List Byte
  | [], _ => []
  | b :: bs, prevSep => (if prevSep then toUpperByte b else b) :: goTitle bs (isSepByte b)

/-- The fixed `WARCHeaders` table of reader.go (lines 348-368), mapping
title-cased keys to the canonical WARC field names. -/
def WARCHeadersMap : List (String × String) :=
  [("Warc-Type", "WARC-Type"),
   ("Warc-Record-Id", "WARC-Record-ID"),
   ("Warc-Date", "WARC-Date"),
   ("Content-Length", "Content-Length"),
   ("Content-Type", "Content-Type"),
   ("Warc-Concurrent-To", "WARC-Concurrent-To"),
   ("Warc-Block-Digest", "WARC-Block-Digest"),
   ("Warc-Payload-Digest", "WARC-Payload-Digest"),
   ("Warc-Ip-Address", "WARC-IP-Address"),
   ("Warc-Refers-To", "WARC-Refers-To"),
   ("Warc-Target-Uri", "WARC-Target-URI"),
   ("Warc-Truncated", "WARC-Truncated"),
   ("Warc-Warcinfo-Id", "WARC-Warcinfo-ID"),
   ("Warc-Filename", "WARC-Filename"),
   ("Warc-Profile", "WARC-Profile"),
   ("Warc-Identified-Payload-Type", "WARC-Identified-Payload-Type"),
   ("Warc-Segment-Origin-Id", "WARC-Segment-Origin-ID"),
   ("Warc-Segment-Number", "WARC-Segment-Number"),
   ("Warc-Segment-Total-Length", "WARC-Segment-Total-Length")]

/-- Model of `bytes.Join(parts, []byte("-"))`. -/
def joinWithByte (sep : Byte) : List (List Byte) → List Byte
  | [] => []
  | [p] => p
  | p :: ps => p ++ sep :: joinWithByte sep ps

/-- Model of `normaliseKey` (reader.go lines 370-380): split the key on
hyphens, lower-case then title-case each part, re-join, and map through
the `WARCHeaders` table (a missing entry yields the empty string, which
Go's `w != ""` guard turns back into the computed key). -/
def normaliseKey (k : List Byte) : String :=
  let parts := splitOnByte 45 k
  let s := asString (joinWithByte 45 (parts.map (fun v => goTitle (v.map toLowerByte) true)))
  let w := ((WARCHeadersMap.lookup s).getD (String.mk []))
  if w ≠ String.mk [] then w else s

/-- Model of `getAllValues` (reader.go lines 399-410) as the ordered list
of `(canonical key, trimmed value)` pairs: one pair per logical line
that splits on `':'` into exactly two parts (a value containing a colon
is skipped, as `bytes.Split` then yields more than two parts). -/
def pairsOf (buf : List Byte) : List (String × String) :=
  (foldedLines buf).filterMap (fun l =>
    match splitOnByte 58 l with
    | [k, v] => some (normaliseKey k, asString (trimSpaceBytes v))
    | _ => none)

/-- The ordered value list a `getAllValues` map associates to a key. -/
def lookupAllVals (ps : List (String × String)) (k : String) : List String :=
  ps.filterMap (fun p => if p.1 = k then some p.2 else none)

/-- Model of `getSelectValues` (reader.go lines 382-397) for one
requested key: the last value whose line's canonical key matches
(`SplitN` with limit 2, so the value is everything after the first
colon), as trimmed bytes; `[]` when no line matches. -/
def getSelectValue (buf : List Byte) (key : String) : List Byte :=
  (foldedLines buf).foldl
    (fun acc l =>
      match splitN2OnByte 58 l with
      | [k, v] => if normaliseKey k = key then trimSpaceBytes v else acc
      | _ => acc)
    []

/-- ASCII digit test. -/
def isDigitByte (b : Byte) : Bool := 48 ≤ b && b ≤ 57

/-- Decimal value of a digit string. -/
def digitsVal (xs : List Byte) : Nat :=
  xs.foldl (fun a b => a * 10 + (b - 48)) 0

/-- Model of `strconv.ParseInt(s, 10, 64)` / `strconv.Atoi`: an optional
sign followed by at least one digit.  (The 64-bit range check is not
modelled; the sizes handled by the package are far below it.) -/
def parseGoInt (xs : List Byte) : Option Int :=
  match xs with
  | [] => none
  | 43 :: rest =>
    if rest.length ≠ 0 ∧ rest.all isDigitByte then some (digitsVal rest : Int) else none
  | 45 :: rest =>
    if rest.length ≠ 0 ∧ rest.all isDigitByte then some (-(digitsVal rest : Int)) else none
  | rest =>
    if rest.all isDigitByte then some (digitsVal rest : Int) else none

/-- A parsed `time.Time` (only the components this package touches).
`zoneOff` is the zone offset in minutes; `frac` the fractional-second
digits. -/
structure GoDate where
  year : Nat
  month : Nat
  day : Nat
  hour : Nat
  minute : Nat
  second : Nat
  frac : List Byte
  zoneOff : Int
  deriving DecidableEq, Repr

/-- Days in a month, with the Gregorian leap rule (used by Go's date
validation). -/
def daysInMonth (y m : Nat) : Nat :=
  if m = 2 then (if (y % 4 = 0 ∧ y % 100 ≠ 0) ∨ y % 400 = 0 then 29 else 28)
  else if m = 4 ∨ m = 6 ∨ m = 9 ∨ m = 11 then 30 else 31

/-- Component-range validation mirroring Go's `time.Parse`. -/
def validDate (y mo d h mi s : Nat) : Bool :=
  decide (1 ≤ mo ∧ mo ≤ 12) && decide (1 ≤ d) && decide (d ≤ daysInMonth y mo) &&
  decide (h ≤ 23) && decide (mi ≤ 59) && decide (s ≤ 59)

/-- Model of `time.Parse(ARCTime, s)` with layout `"20060102150405"`:
exactly 14 digits, with valid component ranges. -/
def parseArcTime (xs : List Byte) : Option GoDate :=
  if xs.length = 14 ∧ xs.all isDigitByte then
    let y := digitsVal (xs.take 4)
    let mo := digitsVal ((xs.drop 4).take 2)
    let d := digitsVal ((xs.drop 6).take 2)
    let h := digitsVal ((xs.drop 8).take 2)
    let mi := digitsVal ((xs.drop 10).take 2)
    let s := digitsVal ((xs.drop 12).take 2)
    if validDate y mo d h mi s then
      some { year := y, month := mo, day := d, hour := h, minute := mi, second := s,
             frac := [], zoneOff := 0 }
    else none
  else none

/-- Zero-padded decimal rendering (width `w`) used by the `time.Format`
model. -/
def padDigits (w n : Nat) : List Byte :=
  let s := (Nat.toDigits 10 n).map (fun c => c.toNat)
  List.replicate (w - s.length) 48 ++ s

/-- Model of `FileDate.Format(ARCTime)`. -/
def formatArcTime (d : GoDate) : String :=
  asString (padDigits 4 d.year ++ padDigits 2 d.month ++ padDigits 2 d.day ++
            padDigits 2 d.hour ++ padDigits 2 d.minute ++ padDigits 2 d.second)

/-- The optional fractional-second part accepted by Go's `time.Parse`:
a dot followed by at least one digit. -/
def parseFrac : List Byte → Option (List Byte × List Byte)
  | 46 :: rest =>
    let ds := rest.takeWhile isDigitByte
    if ds.length = 0 then none else some (ds, rest.drop ds.length)
  | rest => some ([], rest)

/-- The zone designator of the RFC3339 layout: `Z` or `±hh:mm`
(offset returned in minutes). -/
def parseZone : List Byte → Option Int
  | [90] => some 0
  | [43, a, b, 58, c, d] =>
    if [a, b, c, d].all isDigitByte ∧ digitsVal [a, b] ≤ 23 ∧ digitsVal [c, d] ≤ 59 then
      some ((digitsVal [a, b] * 60 + digitsVal [c, d] : Nat) : Int)
    else none
  | [45, a, b, 58, c, d] =>
    if [a, b, c, d].all isDigitByte ∧ digitsVal [a, b] ≤ 23 ∧ digitsVal [c, d] ≤ 59 then
      some (-((digitsVal [a, b] * 60 + digitsVal [c, d] : Nat) : Int))
    else none
  | _ => none

/-- Model of `time.Parse(time.RFC3339, s)`: the fixed layout
`2006-01-02T15:04:05Z07:00`, with Go's always-accepted optional
fractional seconds, and component validation. -/
def parseRFC3339 (xs : List Byte) : Option GoDate :=
  match xs with
  | y1 :: y2 :: y3 :: y4 :: 45 :: m1 :: m2 :: 45 :: d1 :: d2 :: 84 ::
      h1 :: h2 :: 58 :: mi1 :: mi2 :: 58 :: s1 :: s2 :: rest =>
    if [y1, y2, y3, y4, m1, m2, d1, d2, h1, h2, mi1, mi2, s1, s2].all isDigitByte then
      match parseFrac rest with
      | none => none
      | some (fr, rest2) =>
        match parseZone rest2 with
        | none => none
        | some z =>
          let y := digitsVal [y1, y2, y3, y4]
          let mo := digitsVal [m1, m2]
          let d := digitsVal [d1, d2]
          let h := digitsVal [h1, h2]
          let mi := digitsVal [mi1, mi2]
          let s := digitsVal [s1, s2]
          if validDate y mo d h mi s then
            some { year := y, month := mo, day := d, hour := h, minute := mi, second := s,
                   frac := fr, zoneOff := z }
          else none
    else none
  | _ => none

/-- The bytes of the literal `"HTTP/"`. -/
def HTTPbytes : List Byte := [72, 84, 84, 80, 47]

/-- The bytes of the WARC magic `"WARC"`. -/
def WARCmagic : List Byte := [87, 65, 82, 67]

/-- The `WARCHeader` struct of warc.go (lines 23-31).  `date` is `none`
while the field still holds Go's zero `time.Time`. -/
structure WARCHeader where
  url : String
  ID : String
  date : Option GoDate
  size : Int
  rtype : String
  segment : Int
  fields : List Byte
  deriving DecidableEq, Repr

/-- The zero `WARCHeader` built by `newWARCReader`. -/
def WARCHeader.empty : WARCHeader :=
  { url := "", ID := "", date := none, size := 0, rtype := "", segment := 0, fields := [] }

/-- The `continuation` struct of reader.go (lines 457-464). -/
structure ContRec where
  hdr : WARCHeader
  final : Bool
  idx : Nat
  start : Nat
  bufs : List (Option (List Byte))
  buf : List Byte
  deriving DecidableEq, Repr

/-- The `WARCReader` struct of warc.go (lines 38-42): embedded header,
reader, and continuation map (`none` models the nil map before first
use). -/
structure WST where
  hdr : WARCHeader
  rdr : Rdr
  conts : Option (List (String × ContRec))
  deriving DecidableEq, Repr

/-- Model of `WARCReader.reset` (warc.go lines 62-67): require the first
four peeked bytes to be the WARC magic. -/
def warcReset (data : List Byte) (r : Rdr) : Option Err :=
  let pk := readerPeek data r 4
  if pk.2 = false ∧ pk.1 = WARCmagic then none else some Err.warcHeader

/-- Model of `WARCReader.Next` (warc.go lines 69-99): advance to the
next record, read its header block, extract the tracked fields, and
reset the record cursor; each failing sub-step returns its error, with
exactly the partial state mutations the Go code performs before
returning. -/
def wNext (data : List Byte) (w : WST) : Except Err Unit × WST :=
  let nr := readerNext data w.rdr
  match nr.1.2 with
  | some e => (Except.error e, { w with rdr := nr.2 })
  | none =>
    let sl := readerStoreLines data nr.2 [] false
    let w2 : WST := { w with rdr := sl.2, hdr := { w.hdr with fields := sl.1.1 } }
    match sl.1.2 with
    | some _ => (Except.error Err.warcRecord, w2)
    | none =>
      let v0 := getSelectValue w2.hdr.fields "WARC-Type"
      let v1 := getSelectValue w2.hdr.fields "WARC-Target-URI"
      let v2 := getSelectValue w2.hdr.fields "WARC-Date"
      let v3 := getSelectValue w2.hdr.fields "Content-Length"
      let v4 := getSelectValue w2.hdr.fields "WARC-Record-ID"
      let v5 := getSelectValue w2.hdr.fields "WARC-Segment-Number"
      let hdr1 := { w2.hdr with rtype := asString v0, url := asString v1, ID := asString v4 }
      match parseRFC3339 v2 with
      | none => (Except.error Err.dateFormat, { w2 with hdr := { hdr1 with date := none } })
      | some dt =>
        let hdr2 := { hdr1 with date := some dt }
        match parseGoInt v3 with
        | none => (Except.error Err.intFormat, { w2 with hdr := hdr2 })
        | some szv =>
          let hdr3 := { hdr2 with size := szv }
          let r3 : Rdr := { w2.rdr with thisIdx := 0, sz := szv }
          if v5 ≠ [] then
            match parseGoInt v5 with
            | none =>
              (Except.error Err.intFormat,
               { w2 with rdr := r3, hdr := { hdr3 with segment := 0 } })
            | some sg =>
              (Except.ok (), { w2 with rdr := r3, hdr := { hdr3 with segment := sg } })
          else
            (Except.ok (), { w2 with rdr := r3, hdr := { hdr3 with segment := 0 } })

/-- Model of `ioutil.ReadAll(w)` over the record reader: read the whole
unread remainder of the current record (`Read` clamps each request, so
one maximal request followed by the `io.EOF`-returning one gathers
exactly what `ReadAll` gathers). -/
def readAllRecord (data : List Byte) (r : Rdr) : List Byte × Rdr :=
  let res := readerRead data r (r.sz - r.thisIdx).toNat
  (res.1.1, res.2)

/-- Model of `continuation.complete` (reader.go lines 467-496): check
the final flag and that every slot is filled; on success build the
merged buffer (stored fields followed by every segment payload in slot
order), reposition the body start past a leading `HTTP/` transport
header block if one is present, and refresh the `fields` view. -/
def contComplete (c : ContRec) : Bool × ContRec :=
  if c.final = false then (false, c)
  else if c.bufs.any (fun b => b.isNone) then (false, c)
  else
    let fields := c.hdr.fields
    let buf := fields ++ (c.bufs.map (fun b => b.getD [])).flatten
    let idx0 := fields.length
    let c1 : ContRec := { c with buf := buf, idx := idx0, start := idx0,
                                 hdr := { c.hdr with fields := buf.take idx0 } }
    let body := buf.drop idx0
    if body.length > 5 ∧ body.take 5 = HTTPbytes then
      match indexBlankLine body with
      | some bi =>
        (true, { c1 with idx := idx0 + bi, start := idx0 + bi,
                         hdr := { c1.hdr with fields := buf.take (idx0 + bi) } })
      | none => (true, c1)
    else (true, c1)

/-- Replace the value stored under `k`, or append a new entry. -/
def upsertContRec (c : List (String × ContRec)) (k : String) (v : ContRec) : List (String × ContRec) :=
  if (c.lookup k).isSome then c.map (fun p => if p.1 = k then (k, v) else p)
  else c ++ [(k, v)]

/-- Remove the entry stored under `k`. -/
def removeContRec (c : List (String × ContRec)) (k : String) : List (String × ContRec) :=
  c.filter (fun p => p.1 ≠ k)

/-- Model of `continuations.put` (reader.go lines 414-455): group the
segment under its origin identifier (its own identifier for segment 1),
create the entry on first sight with a slot list sized to this
segment's number, mark it final when the total-length field is present,
store the fully-read payload at slot `segment - 1`, and emit the merged
record exactly when `complete` reports true (removing the entry).

The Go code builds a larger slot list when `segment` exceeds the
current one but never assigns it back to `cr.bufs`, so the subsequent
`cr.bufs[segment-1]` write is an out-of-range panic (`Err.fatal`). -/
def contPut (data : List Byte) (c : List (String × ContRec)) (w : WST) :
    Except Err (Option ContRec) × List (String × ContRec) × Rdr :=
  let idfinal : String × Bool :=
    if w.hdr.segment > 1 then
      let fl := pairsOf w.hdr.fields
      let s := lookupAllVals fl "WARC-Segment-Origin-ID"
      let idv := match s with
        | [] => ""
        | v :: _ => v
      (idv, (lookupAllVals fl "WARC-Segment-Total-Length") ≠ [])
    else (w.hdr.ID, false)
  let id := idfinal.1
  let cr : ContRec :=
    match c.lookup id with
    | some cr => cr
    | none =>
      { hdr := { url := w.hdr.url, ID := w.hdr.ID, date := w.hdr.date, rtype := w.hdr.rtype,
                 size := 0, segment := 0, fields := w.hdr.fields },
        final := false, idx := 0, start := 0,
        bufs := List.replicate w.hdr.segment.toNat none, buf := [] }
  let cr1 : ContRec := if idfinal.2 then { cr with final := true } else cr
  let ra := readAllRecord data w.rdr
  let si := (w.hdr.segment - 1).toNat
  if (w.hdr.segment - 1) < 0 ∨ cr1.bufs.length ≤ si then
    (Except.error Err.fatal, upsertContRec c id cr1, ra.2)
  else
    let cr2 : ContRec := { cr1 with bufs := cr1.bufs.set si (some ra.1) }
    let cm := contComplete cr2
    if cm.1 then (Except.ok (some cm.2), removeContRec c id, ra.2)
    else (Except.ok none, upsertContRec c id cm.2, ra.2)

/-- A record yielded by `NextPayload`: the reader itself, or a merged
continuation. -/
inductive RecView where
  | rdr : RecView
  | cont : ContRec → RecView
  deriving DecidableEq, Repr

/-- Model of `WARCReader.NextPayload` (warc.go lines 101-129): loop over
`Next`; route segmented records through the continuation engine and
yield only merged results; for plain records dispatch on type —
`resource` and `conversion` are returned as-is, `response` records get
their leading `HTTP/` transport header folded into the field block
(shrinking `sz`, with any scan error discarded by the shadowed `err`),
and all other types are skipped.  `fuel` bounds the skip loop. -/
def wNextPayload (data : List Byte) : Nat → WST → Except Err RecView × WST
  | 0, w => (Except.error Err.fatal, w)
  | fuel + 1, w =>
    match wNext data w with
    | (Except.error e, w1) => (Except.error e, w1)
    | (Except.ok _, w1) =>
      if w1.hdr.segment > 0 then
        let cmap := w1.conts.getD []
        match contPut data cmap w1 with
        | (Except.error e, cmap2, r2) =>
          (Except.error e, { w1 with rdr := r2, conts := some cmap2 })
        | (Except.ok (some cr), cmap2, r2) =>
          (Except.ok (RecView.cont cr), { w1 with rdr := r2, conts := some cmap2 })
        | (Except.ok none, cmap2, r2) =>
          wNextPayload data fuel { w1 with rdr := r2, conts := some cmap2 }
      else
        match w1.hdr.rtype with
        | "resource" => (Except.ok RecView.rdr, w1)
        | "conversion" => (Except.ok RecView.rdr, w1)
        | "response" =>
          let pk := readerPeek data w1.rdr 5
          if pk.2 = false ∧ pk.1 = HTTPbytes then
            let sl := readerStoreLines data w1.rdr w1.hdr.fields true
            (Except.ok RecView.rdr,
             { w1 with rdr := sl.2, hdr := { w1.hdr with fields := sl.1.1 } })
          else (Except.ok RecView.rdr, w1)
        | _ => wNextPayload data fuel w1

/-- Model of `continuation.Read` (reader.go lines 498-511).  The method
advances `idx` by the clamped length `l` but copies from `c.buf[c.idx:l]`
— a slice whose high bound is `l` rather than `c.idx + l`, which panics
(`Err.fatal`) whenever `c.idx > l` and otherwise returns only
`l - c.idx` meaningful bytes (the rest of the caller's buffer is left
untouched); the returned bytes are the well-defined copied portion. -/
def contRead (c : ContRec) (plen : Nat) : (List Byte × Option Err) × ContRec :=
  if c.idx ≥ c.buf.length then (([], some Err.eof), c)
  else
    let le : Nat × Option Err :=
      if plen > c.buf.length - c.idx then (c.buf.length - c.idx, some Err.eof)
      else (plen, none)
    if c.idx ≤ le.1 then
      (((c.buf.take le.1).drop c.idx, le.2), { c with idx := c.idx + le.1 })
    else (([], some Err.fatal), c)

/-- Model of `continuation.Slice` (reader.go lines 513-522). -/
def contSlice (c : ContRec) (off : Int) (l : Nat) : List Byte × Option Err :=
  let base : Int := (c.start : Int) + off
  if base ≥ (c.buf.length : Int) then ([], some Err.eof)
  else
    let le : Int × Option Err :=
      if (l : Int) > (c.buf.length : Int) - base then ((c.buf.length : Int) - base, some Err.eof)
      else ((l : Int), none)
    if 0 ≤ base then (((c.buf.take (base + le.1).toNat).drop base.toNat), le.2)
    else ([], some Err.fatal)

/-- Model of `continuation.EofSlice` (reader.go lines 524-536).  Note
the final expression `c.buf[o:l]`: the high bound is the clamped length
`l`, not `o + l`, so the call panics (`Err.fatal`) whenever `o > l`. -/
def contEofSlice (c : ContRec) (off : Int) (l : Nat) : List Byte × Option Err :=
  if off + (c.start : Int) ≥ (c.buf.length : Int) then ([], some Err.eof)
  else
    let loe : Int × Int × Option Err :=
      if (l : Int) > (c.buf.length : Int) - c.start - off then
        ((c.buf.length : Int) - c.start - off, 0, some Err.eof)
      else ((l : Int), (c.buf.length : Int) - c.start - off - l, none)
    if 0 ≤ loe.2.1 ∧ loe.2.1 ≤ loe.1 then
      (((c.buf.take loe.1.toNat).drop loe.2.1.toNat), loe.2.2)
    else ([], some Err.fatal)

/-- The archive-level metadata of an ARC container (arc.go lines 33-39). -/
structure ARCinfo where
  Path : String
  Address : String
  FileDate : GoDate
  Version : Int
  OriginCode : String
  deriving DecidableEq, Repr

/-- Model of `ARCReader.readVersionBlock` (arc.go lines 155-195): parse
the two-line version block (both `readLine` errors are ignored, exactly
as the Go code drops them), then discard
`(version-block length) - (bytes of line 2)` bytes; in streaming mode a
discard shortfall (or a negative count) is a `log.Fatal` / panic. -/
def readVersionBlock (data : List Byte) (r : Rdr) : Except Err ARCinfo × Rdr :=
  let rl1 := readerReadLine data r
  let buf1 := rl1.1.1
  let r1 := rl1.2
  if buf1.length = 0 then (Except.error Err.versionBlock, r1)
  else
    let line1 := splitOnByte 32 buf1
    if line1.length < 3 then (Except.error Err.versionBlock, r1)
    else
      match parseArcTime (line1.getD 2 []) with
      | none => (Except.error Err.versionBlock, r1)
      | some t =>
        let rl2 := readerReadLine data r1
        let buf2 := rl2.1.1
        let r2 := rl2.2
        let line2 := splitOnByte 32 buf2
        if line2.length < 3 then (Except.error Err.versionBlock, r2)
        else
          match parseGoInt (line2.getD 0 []) with
          | none => (Except.error Err.versionBlock, r2)
          | some version =>
            match parseGoInt (trimSpaceBytes (line1.getLastD [])) with
            | none => (Except.error Err.versionBlock, r2)
            | some l0 =>
              let l1 : Int := l0 - (buf2.length : Int)
              let arc : ARCinfo :=
                { Path := asString (line1.getD 0 []),
                  Address := asString (line1.getD 1 []),
                  FileDate := t,
                  Version := version,
                  OriginCode := asString (trimSpaceBytes (line2.getLastD [])) }
              if r2.slicer then (Except.ok arc, { r2 with idx := r2.idx + l1 })
              else if 0 ≤ l1 ∧ (r2.pos : Int) + l1 ≤ (data.length : Int) then
                (Except.ok arc, { r2 with pos := r2.pos + l1.toNat })
              else (Except.error Err.fatal, r2)

/-- The version-1 ARC URL record (arc.go lines 42-49). -/
structure URL1 where
  url : String
  IP : String
  date : GoDate
  MIME : String
  sz : Int
  fields : List Byte
  deriving DecidableEq, Repr

/-- Model of `makeUrl1` (arc.go lines 197-216). -/
def makeUrl1 (p : List (List Byte)) : Except Err URL1 :=
  if p.length < 5 then Except.error Err.arcHeader
  else
    match parseArcTime (p.getD 2 []) with
    | none => Except.error Err.arcHeader
    | some date =>
      match parseGoInt (p.getLastD []) with
      | none => Except.error Err.arcHeader
      | some l =>
        Except.ok
          { url := asString (p.getD 0 []), IP := asString (p.getD 1 []), date := date,
            MIME := asString (p.getD 3 []), sz := l, fields := [] }

/-- The version-2 ARC URL record (arc.go lines 71-78). -/
structure URL2 where
  u1 : URL1
  StatusCode : Int
  Checksum : String
  Location : String
  Offset : Int
  Filename : String
  deriving DecidableEq, Repr

/-- Model of `makeUrl2` (arc.go lines 218-242): exactly 10 tokens; the
version-1 fields plus status code, checksum, redirect location, offset
and origin filename (the 9th token, `p[8]`). -/
def makeUrl2 (p : List (List Byte)) : Except Err URL2 :=
  if p.length ≠ 10 then Except.error Err.arcHeader
  else
    match makeUrl1 p with
    | Except.error _ => Except.error Err.arcHeader
    | Except.ok u1 =>
      match parseGoInt (p.getD 4 []) with
      | none => Except.error Err.arcHeader
      | some status =>
        match parseGoInt (p.getD 7 []) with
        | none => Except.error Err.arcHeader
        | some offset =>
          Except.ok
            { u1 := u1, StatusCode := status, Checksum := asString (p.getD 5 []),
              Location := asString (p.getD 6 []), Offset := offset,
              Filename := asString (p.getD 8 []) }

/-- Model of `URL1.Fields` (arc.go lines 53-66) as the value list the
returned map holds under key `k`: the parsed header-block pairs of
`u.fields`, with the five summary keys overwritten last. -/
def url1Fields (u : URL1) (k : String) : List String :=
  if k = "URL" then [u.url]
  else if k = "IP" then [u.IP]
  else if k = "Date" then [formatArcTime u.date]
  else if k = "MIME" then [u.MIME]
  else if k = "Size" then [toString u.sz]
  else lookupAllVals (pairsOf u.fields) k

/-- Model of `URL2.Fields` (arc.go lines 80-88) as the value list under
key `k`.  The Go code assigns `fields["Filename"] = []string{u.Location}`
(arc.go line 86), so the `Filename` key carries the redirect-location
token, not the `Filename` struct field. -/
def url2Fields (u : URL2) (k : String) : List String :=
  if k = "StatusCode" then [toString u.StatusCode]
  else if k = "Checksum" then [u.Checksum]
  else if k = "Location" then [u.Location]
  else if k = "Offset" then [toString u.Offset]
  else if k = "Filename" then [u.Location]
  else url1Fields u.u1 k

/-- Model of `isgzip` (reader.go lines 133-138). -/
def isgzipM (b : List Byte) : Bool :=
  b.getD 0 0 == 31 && b.getD 1 0 == 139 && b.getD 2 0 == 8

/-- Model of `newReader` + `unzip` (reader.go lines 106-163) for an
uncompressed source: build the initial cursor state; a source whose
first three peeked bytes are the gzip magic takes the unmodelled
decompression path (`Err.gzipSrc`). -/
def newReaderM (data : List Byte) (slicerMode : Bool) : Except Err Rdr :=
  let r := Rdr.init slicerMode
  let pk3 := readerPeek data r 3
  if pk3.2 = false ∧ isgzipM pk3.1 then Except.error Err.gzipSrc else Except.ok r

/-- The reader kind selected by `NewReader`. -/
inductive RKind where
  | warc : RKind
  | arc : ARCinfo → RKind
  deriving DecidableEq, Repr

/-- Model of `NewReader` (webarchive.go, lines 70-84 of the revision
with `MultiReader`): build one reader over the source, try WARC (a
4-byte magic peek), fall back to ARC (version-block parse) on the same
reader, and report the container-level `ErrNotWebarchive` when neither
matches. -/
def NewReaderM (data : List Byte) (slicerMode : Bool) : Except Err RKind :=
  match newReaderM data slicerMode with
  | Except.error e => Except.error e
  | Except.ok r =>
    match warcReset data r with
    | none => Except.ok RKind.warc
    | some _ =>
      match readVersionBlock data r with
      | (Except.ok a, _) => Except.ok (RKind.arc a)
      | (Except.error _, _) => Except.error Err.notWebarchive

/-- ASCII bytes of a string literal (test-input helper). -/
def S (s : String) : List Byte := s.toList.map Char.toNat

/-- A parsed 10-token version-2 ARC record line whose redirect-location
token (7th) is `LOC` and whose origin-filename token (9th) is `FILE`. -/
def c9tokens : List (List Byte) :=
  splitOnByte 32 (S "http://a 0.0.0.0 20080430204825 text/html 200 chk LOC 10 FILE 5")

/-- C9: the record line parses, the `Filename` struct field faithfully
holds the 9th token, and `Location` maps to the 7th token — but the
field map exposes the redirect-location token under the key
`"Filename"` (arc.go line 86 assigns `u.Location` there), not the
origin-filename token. -/
theorem url2Fields_filename_takes_location :
    (makeUrl2 c9tokens).toOption.map
        (fun u => (u.Filename, url2Fields u "Filename", url2Fields u "Location")) =
      some ("FILE", ["LOC"], ["LOC"]) := by
  rfl

/-- A merged continuation whose content is the four bytes `abcd`
(`start = 0`, so the declared content size is 4). -/
def c10cont : ContRec :=
  { hdr := WARCHeader.empty, final := true, idx := 0, start := 0, bufs := [],
    buf := S "abcd" }

/-- A slicer-backed reader positioned on a four-byte record `abcd`. -/
def c10rdr : Rdr := { slicer := true, pos := 0, idx := 0, thisIdx := 0, sz := 4 }

/-- C10 counterexample: with content size 4, `EofSlice(1, 2)` must equal
`Slice(4 - 1 - 2, 2) = Slice(1, 2)`.  The reader implementation
satisfies this (both give `bc`), but `continuation.EofSlice` slices
`c.buf[o:l]` instead of `c.buf[o:o+l]` and returns the single byte `b`,
disagreeing with `continuation.Slice(1, 2) = bc`. -/
theorem contEofSlice_misaligned :
    (contEofSlice c10cont 1 2).1 = S "b" ∧
    (contSlice c10cont 1 2).1 = S "bc" ∧
    (readerEofSlice (S "abcd") c10rdr 1 2).1 = S "bc" ∧
    (readerSlice (S "abcd") c10rdr 1 2).1 = S "bc" := by
  exact ⟨rfl, rfl, rfl, rfl⟩

/-- Segment 1 of a two-segment WARC record: payload `ABCD`. -/
def c2seg1 : WST :=
  { hdr := { url := "http://x", ID := "<id1>", date := none, size := 4, rtype := "response",
             segment := 1,
             fields := S "WARC-Type: response\nWARC-Segment-Number: 1\n\n" },
    rdr := { slicer := false, pos := 0, idx := 0, thisIdx := 0, sz := 4 }, conts := none }

/-- The container bytes segment 1 reads its payload from. -/
def c2data1 : List Byte := S "ABCD"

/-- Segment 2 (the terminal segment, carrying the total-length field):
payload `EFG`, origin identifier `<id1>`. -/
def c2seg2 : WST :=
  { hdr := { url := "http://x", ID := "<id2>", date := none, size := 3,
             rtype := "continuation", segment := 2,
             fields := S "WARC-Type: continuation\nWARC-Segment-Origin-ID: <id1>\nWARC-Segment-Number: 2\nWARC-Segment-Total-Length: 7\n\n" },
    rdr := { slicer := false, pos := 0, idx := 0, thisIdx := 0, sz := 3 }, conts := none }

/-- The container bytes segment 2 reads its payload from. -/
def c2data2 : List Byte := S "EFG"

/-- C2: submitting segments 1 and 2 in ascending order, the first
submission correctly reports "not yet", but the completing submission
panics: `put` sizes the slot list to the first-seen segment number and
the grown replacement `nb` is never assigned back to `cr.bufs`, so
`cr.bufs[segment-1]` indexes out of range (`Err.fatal`).  In the
reverse arrival order (2 then 1) the same submissions merge correctly:
exactly one complete result, whose body (the bytes past `start`) is the
segment-ordered concatenation `ABCDEFG`, with the entry removed from
the map. -/
theorem contPut_ascending_panics :
    (contPut c2data1 [] c2seg1).1 = Except.ok none ∧
    (contPut c2data2 (contPut c2data1 [] c2seg1).2.1 c2seg2).1 = Except.error Err.fatal ∧
    (contPut c2data2 [] c2seg2).1 = Except.ok none ∧
    ((contPut c2data1 (contPut c2data2 [] c2seg2).2.1 c2seg1).1.toOption.map
        (fun o => o.map (fun c => c.buf.drop c.start)) = some (some (S "ABCDEFG"))) ∧
    (contPut c2data1 (contPut c2data2 [] c2seg2).2.1 c2seg1).2.1 = [] := by
  exact ⟨rfl, rfl, rfl, rfl, rfl⟩

/-- The first newline of a prefix survives appending more bytes. -/
theorem idxNL_append_left : ∀ {xs : List Byte} {i : Nat} (ys : List Byte),
    idxNL xs = some i → idxNL (xs ++ ys) = some i := by
  intro xs
  induction xs with
  | nil => intro i ys h; simp [idxNL] at h
  | cons b bs ih =>
    intro i ys h
    simp only [idxNL, List.cons_append] at h ⊢
    by_cases hb : (b == NLb) = true
    · rw [if_pos hb] at h ⊢; exact h
    · rw [if_neg hb] at h ⊢
      cases hj : idxNL bs with
      | none => rw [hj] at h; simp at h
      | some j =>
        rw [hj] at h
        simp only [List.append_eq]
        rw [ih ys hj]
        exact h

/-- `ReadBytes('\n')` only looks at the prefix that holds the newline it
consumes. -/
theorem readBytesNL_front {xs : List Byte} (ys : List Byte) {pos i : Nat}
    (h : idxNL (xs.drop pos) = some i) :
    readBytesNL (xs ++ ys) pos = ((xs.drop pos).take (i + 1), pos + i + 1, false) := by
  have hlen := idxNL_lt_length h
  simp only [List.length_drop] at hlen
  have hpos : pos ≤ xs.length := by omega
  unfold readBytesNL
  rw [List.drop_append_of_le_length hpos, idxNL_append_left ys h]
  show (List.take (i + 1) (xs.drop pos ++ ys), pos + i + 1, false) = _
  rw [List.take_append_of_le_length (by simp only [List.length_drop]; omega)]

/-- Streaming-mode `readLine` over a container with a known prefix: only
the prefix that holds the next newline matters. -/
theorem readerReadLine_stream_front {xs : List Byte} (ys : List Byte) {r : Rdr}
    (hs : r.slicer = false) {i : Nat} (hnl : idxNL (xs.drop r.pos) = some i) :
    readerReadLine (xs ++ ys) r =
      (((xs.drop r.pos).take (i + 1), none), { r with pos := r.pos + i + 1 }) := by
  unfold readerReadLine
  rw [if_neg (by rw [hs]; exact Bool.false_ne_true)]
  rw [readBytesNL_front ys hnl]
  rfl

/-- The ARC version block of the spec's literal scenario: a 55-byte
first line declaring block length 123, and a 20-byte second line. -/
def c6vb : List Byte :=
  S "filedesc://x.arc 0.0.0.0 20080430204825 text/plain 123\n1 0 InternetArchive\n"

/-- C6: on the literal scenario block followed by any 123 bytes, opening
as ARC succeeds with `Version = 1`, `FileDate` formats back to
`"20080430204825"`, and exactly `123 - 20 = 103` bytes are discarded
after line 2 (the reader stops at position `75 + 103 = 178`, where the
first URL record would be scanned); and each malformed sub-step —
fewer than 3 tokens on line 1, an invalid timestamp, a non-integer
version, a non-integer block length, or an empty source — returns the
version-block error. -/
theorem readVersionBlock_scenario (rest : List Byte) (h : rest.length = 123) :
    (readVersionBlock (c6vb ++ rest) (Rdr.init false) =
      (Except.ok { Path := "filedesc://x.arc", Address := "0.0.0.0",
                   FileDate := { year := 2008, month := 4, day := 30, hour := 20,
                                 minute := 48, second := 25, frac := [], zoneOff := 0 },
                   Version := 1, OriginCode := "InternetArchive" },
       { slicer := false, pos := 178, idx := 0, thisIdx := 0, sz := 0 })) ∧
    formatArcTime { year := 2008, month := 4, day := 30, hour := 20, minute := 48,
                    second := 25, frac := [], zoneOff := 0 } = "20080430204825" ∧
    178 = c6vb.length + (123 - 20) ∧
    (readVersionBlock (S "filedesc\n1 0 IA\n") (Rdr.init false)).1
      = Except.error Err.versionBlock ∧
    (readVersionBlock (S "a b 2008xx c 10\nx y z\n") (Rdr.init false)).1
      = Except.error Err.versionBlock ∧
    (readVersionBlock (S "a b 20080430204825 30\nbadversion 0 IA\n") (Rdr.init false)).1
      = Except.error Err.versionBlock ∧
    (readVersionBlock (S "a b 20080430204825 xx\n1 0 IA\n") (Rdr.init false)).1
      = Except.error Err.versionBlock ∧
    (readVersionBlock ([] : List Byte) (Rdr.init false)).1
      = Except.error Err.versionBlock := by
  refine ⟨?_, rfl, rfl, rfl, rfl, rfl, rfl, rfl⟩
  have h1 := @readerReadLine_stream_front c6vb rest (Rdr.init false) rfl 54 (by rfl)
  have h2 := @readerReadLine_stream_front c6vb rest
    { slicer := false, pos := 55, idx := 0, thisIdx := 0, sz := 0 } rfl 19 (by rfl)
  simp only [Rdr.init] at h1
  norm_num at h1 h2
  simp only [readVersionBlock, Rdr.init]
  rw [h1, h2]
  simp only [List.length_append, h]
  norm_num
  rfl

/-- C6 witness: a concrete 123-byte tail. -/
theorem readVersionBlock_scenario_witness :
    (List.replicate 123 65 : List Byte).length = 123 ∧
    (readVersionBlock (c6vb ++ List.replicate 123 65) (Rdr.init false)).1.toOption.map
        (fun a => (formatArcTime a.FileDate, a.Version)) = some ("20080430204825", 1) := by
  refine ⟨by decide, ?_⟩
  rw [(readVersionBlock_scenario (List.replicate 123 65) (by decide)).1]
  rfl

/-- `reader.peek` on a freshly opened reader returns the first bytes of
the container in either mode, flagging a short result. -/
theorem readerPeek_init (data : List Byte) (sl : Bool) (n : Nat) :
    readerPeek data (Rdr.init sl) n = (data.take n, decide (data.length < n)) := by
  cases sl <;> simp [readerPeek, Rdr.init, slicerSlice, peekStream, Nat.lt_iff_add_one_le]

/-- C5: opening an uncompressed container auto-detects the format: when
the first 4 bytes are the WARC magic, `NewReader` yields a WARC reader;
otherwise it attempts ARC on the same source, yielding an ARC reader on
a successful version-block parse; and when neither matches it reports
`ErrNotWebarchive`, a container-level error distinct from the
ARC-specific and WARC-specific errors. -/
theorem NewReaderM_detect (data : List Byte) (sl : Bool)
    (hgz : ¬(3 ≤ data.length ∧ isgzipM (data.take 3) = true)) :
    (data.take 4 = WARCmagic → NewReaderM data sl = Except.ok RKind.warc) ∧
    (data.take 4 ≠ WARCmagic →
      (∀ a r2, readVersionBlock data (Rdr.init sl) = (Except.ok a, r2) →
        NewReaderM data sl = Except.ok (RKind.arc a)) ∧
      (∀ e r2, readVersionBlock data (Rdr.init sl) = (Except.error e, r2) →
        NewReaderM data sl = Except.error Err.notWebarchive)) ∧
    (Err.notWebarchive ≠ Err.versionBlock ∧ Err.notWebarchive ≠ Err.warcHeader ∧
     Err.notWebarchive ≠ Err.arcHeader ∧ Err.notWebarchive ≠ Err.eof) := by
  have hnr : newReaderM data sl = Except.ok (Rdr.init sl) := by
    simp only [newReaderM]
    rw [readerPeek_init]
    rw [if_neg (by
      intro hc
      apply hgz
      constructor
      · by_contra hlt
        push_neg at hlt
        have : (decide (data.length < 3)) = true := by simp; omega
        rw [this] at hc
        exact absurd hc.1 (by simp)
      · exact hc.2)]
  refine ⟨?_, ?_, by decide, by decide, by decide, by decide⟩
  · intro hm
    have hlen : 4 ≤ data.length := by
      have := congrArg List.length hm
      simp only [List.length_take, WARCmagic, List.length_cons, List.length_nil] at this
      omega
    have hw : warcReset data (Rdr.init sl) = none := by
      simp only [warcReset, readerPeek_init]
      rw [if_pos ⟨by simp; omega, hm⟩]
    simp only [NewReaderM, hnr, hw]
  · intro hm
    have hw : warcReset data (Rdr.init sl) = some Err.warcHeader := by
      simp only [warcReset, readerPeek_init]
      rw [if_neg (fun hc => hm hc.2)]
    constructor
    · intro a r2 hvb
      simp only [NewReaderM, hnr, hw, hvb]
    · intro e r2 hvb
      simp only [NewReaderM, hnr, hw, hvb]

/-- C5 witness: a WARC-magic container opens as WARC; a container that
is neither WARC nor ARC yields the distinct container-level error. -/
theorem NewReaderM_detect_witness :
    NewReaderM (S "WARC/1.0\nWARC-Type: warcinfo\n\n") false = Except.ok RKind.warc ∧
    NewReaderM (S "not an archive") false = Except.error Err.notWebarchive := by
  constructor
  · exact (NewReaderM_detect (S "WARC/1.0\nWARC-Type: warcinfo\n\n") false
      (by decide)).1 (by decide)
  · exact ((NewReaderM_detect (S "not an archive") false (by decide)).2.1
      (by decide)).2 Err.versionBlock
      { slicer := false, pos := 14, idx := 0, thisIdx := 0, sz := 0 } (by rfl)

/-- Lower-casing preserves being (or not being) the hyphen byte. -/
theorem toLowerByte_eq_45 {a b : Nat} (h : toLowerByte a = toLowerByte b) :
    (a = 45) ↔ (b = 45) := by
  have h2 : (if 65 ≤ a ∧ a ≤ 90 then a + 32 else a) =
      (if 65 ≤ b ∧ b ≤ 90 then b + 32 else b) := h
  split_ifs at h2 <;> (constructor <;> intro hx <;> omega)

/-- `splitOnByte 45` never returns the empty list. -/
theorem splitOnByte_ne_nil (sep : Byte) : ∀ (xs : List Byte), splitOnByte sep xs ≠ [] := by
  intro xs
  cases xs with
  | nil => simp [splitOnByte]
  | cons b bs =>
    simp only [splitOnByte]
    by_cases hb : (b == sep) = true
    · rw [if_pos hb]; simp
    · rw [if_neg hb]
      cases splitOnByte sep bs with
      | nil => simp
      | cons p ps => simp

/-- Splitting two byte-wise case-equal keys on the hyphen yields parts
that are pairwise case-equal. -/
theorem splitOn45_lower : ∀ {k1 k2 : List Byte},
    k1.map toLowerByte = k2.map toLowerByte →
    List.Forall₂ (fun a b => a.map toLowerByte = b.map toLowerByte)
      (splitOnByte 45 k1) (splitOnByte 45 k2) := by
  intro k1
  induction k1 with
  | nil =>
    intro k2 h
    cases k2 with
    | nil => exact List.Forall₂.cons rfl List.Forall₂.nil
    | cons b bs => simp at h
  | cons a as ih =>
    intro k2 h
    cases k2 with
    | nil => simp at h
    | cons b bs =>
      simp only [List.map_cons, List.cons.injEq] at h
      obtain ⟨ha, ht⟩ := h
      have h45 := toLowerByte_eq_45 ha
      simp only [splitOnByte]
      by_cases hb : (a == 45) = true
      · have hb2 : (b == 45) = true := by
          simp only [beq_iff_eq] at hb ⊢
          exact h45.mp hb
        rw [if_pos hb, if_pos hb2]
        exact List.Forall₂.cons rfl (ih ht)
      · have hb2 : ¬((b == 45) = true) := by
          simp only [beq_iff_eq] at hb ⊢
          intro hx
          exact hb (h45.mpr hx)
        rw [if_neg hb, if_neg hb2]
        have hrec := ih ht
        cases hp : splitOnByte 45 as with
        | nil => exact absurd hp (splitOnByte_ne_nil 45 as)
        | cons p ps =>
          cases hq : splitOnByte 45 bs with
          | nil => exact absurd hq (splitOnByte_ne_nil 45 bs)
          | cons q qs =>
            rw [hp, hq] at hrec
            cases hrec with
            | cons hpq hps =>
              exact List.Forall₂.cons (by simp only [List.map_cons, ha, hpq]) hps

/-- C7: header-key canonicalization is case-insensitive — any two keys
that agree byte-for-byte after ASCII lower-casing normalise to the same
canonical key, and looking either one up in any header block's field
map yields the same value list. -/
theorem normaliseKey_case_insensitive (k1 k2 : List Byte)
    (h : k1.map toLowerByte = k2.map toLowerByte) :
    normaliseKey k1 = normaliseKey k2 ∧
    ∀ buf : List Byte,
      lookupAllVals (pairsOf buf) (normaliseKey k1) =
        lookupAllVals (pairsOf buf) (normaliseKey k2) := by
  have hparts := splitOn45_lower h
  have hmapGen : ∀ {l1 l2 : List (List Byte)},
      List.Forall₂ (fun a b => a.map toLowerByte = b.map toLowerByte) l1 l2 →
      l1.map (fun v => goTitle (v.map toLowerByte) true) =
        l2.map (fun v => goTitle (v.map toLowerByte) true) := by
    intro l1 l2 hf
    induction hf with
    | nil => rfl
    | cons hab ht ih2 =>
      simp only [List.map_cons, ih2, List.cons.injEq, and_true]
      rw [hab]
  have hmap := hmapGen hparts
  have hkey : normaliseKey k1 = normaliseKey k2 := by
    simp only [normaliseKey]
    rw [hmap]
  exact ⟨hkey, fun buf => by rw [hkey]⟩

/-- C7 witness: the three literal casings of the content-length key all
resolve to the canonical key `Content-Length` and to the same looked-up
value. -/
theorem normaliseKey_case_insensitive_witness :
    normaliseKey (S "content-length") = normaliseKey (S "Content-Length") ∧
    normaliseKey (S "CONTENT-LENGTH") = normaliseKey (S "Content-Length") ∧
    normaliseKey (S "Content-Length") = "Content-Length" ∧
    lookupAllVals (pairsOf (S "Content-Length: 42\n\n"))
      (normaliseKey (S "CONTENT-LENGTH")) = ["42"] := by
  refine ⟨(normaliseKey_case_insensitive (S "content-length") (S "Content-Length")
      (by decide)).1,
    (normaliseKey_case_insensitive (S "CONTENT-LENGTH") (S "Content-Length")
      (by decide)).1, by rfl, ?_⟩
  rw [(normaliseKey_case_insensitive (S "CONTENT-LENGTH") (S "Content-Length")
    (by decide)).1]
  rfl

/-- A driver feeding a sequence of bounded-read requests to the reader
and concatenating the returned bytes. -/
def drainRead (data : List Byte) : List Nat → Rdr → List Byte × Rdr
  | [], r => ([], r)
  | p :: ps, r =>
    let res := readerRead data r p
    let rest := drainRead data ps res.2
    (res.1.1 ++ rest.1, rest.2)

/-- The unread remainder of the current record lies inside the
container (the well-formedness needed for reads to be served in full). -/
def recordInBounds (data : List Byte) (r : Rdr) : Prop :=
  if r.slicer = true then 0 ≤ r.idx ∧ r.idx + r.sz ≤ (data.length : Int)
  else (r.pos : Int) + (r.sz - r.thisIdx) ≤ (data.length : Int)

/-- One in-bounds `Read`: the request is clamped to `sz - thisIdx`, that
many bytes come back, and only `thisIdx` (plus the streaming position)
advances, staying in bounds. -/
theorem readerRead_step (data : List Byte) (r : Rdr) (plen : Nat)
    (h0 : 0 ≤ r.thisIdx) (h1 : r.thisIdx < r.sz) (hb : recordInBounds data r) :
    ((readerRead data r plen).1.1.length : Int) = min (plen : Int) (r.sz - r.thisIdx) ∧
    (readerRead data r plen).1.2 = none ∧
    (readerRead data r plen).2.thisIdx = r.thisIdx + min (plen : Int) (r.sz - r.thisIdx) ∧
    (readerRead data r plen).2.sz = r.sz ∧
    (readerRead data r plen).2.slicer = r.slicer ∧
    (readerRead data r plen).2.idx = r.idx ∧
    recordInBounds data (readerRead data r plen).2 := by
  have hmin : (if (plen : Int) > r.sz - r.thisIdx then r.sz - r.thisIdx else (plen : Int)) =
      min (plen : Int) (r.sz - r.thisIdx) := by
    split_ifs with hc
    · omega
    · omega
  unfold readerRead
  rw [if_neg (by omega)]
  cases hsl : r.slicer with
  | false =>
    unfold recordInBounds at hb
    rw [hsl] at hb
    simp only [Bool.false_eq_true, if_false] at hb
    simp only [hsl, Bool.false_eq_true, if_false, if_true]
    rw [hmin]
    have hln : (min (plen : Int) (r.sz - r.thisIdx)).toNat ≤ data.length - r.pos := by omega
    have hk : min (min (plen : Int) (r.sz - r.thisIdx)).toNat (data.length - r.pos) =
        (min (plen : Int) (r.sz - r.thisIdx)).toNat := by omega
    rw [hk]
    refine ⟨?_, ?_, by simp, by simp, by simp [hsl], by simp, ?_⟩
    · simp only [List.length_take, List.length_drop]
      omega
    · rw [if_neg (by omega)]
    · unfold recordInBounds
      simp only [hsl, Bool.false_eq_true, if_false]
      push_cast
      omega
  | true =>
    unfold recordInBounds at hb
    rw [hsl] at hb
    simp only [if_true] at hb
    simp only [hsl, if_true, Bool.true_eq_false, if_false]
    rw [hmin]
    have hoff : r.idx + (r.thisIdx + min (plen : Int) (r.sz - r.thisIdx)) -
        min (plen : Int) (r.sz - r.thisIdx) = r.idx + r.thisIdx := by omega
    unfold slicerSlice
    rw [if_neg (by omega)]
    have hflag : ¬ ((r.idx + (r.thisIdx + min (plen : Int) (r.sz - r.thisIdx)) -
        min (plen : Int) (r.sz - r.thisIdx)).toNat +
        (min (plen : Int) (r.sz - r.thisIdx)).toNat > data.length) := by
      omega
    refine ⟨?_, ?_, by simp, by simp, by simp [hsl], by simp, ?_⟩
    · simp only [List.length_take, List.length_drop]
      omega
    · simp [hflag]
    · unfold recordInBounds
      simp only [hsl, if_true]
      refine ⟨by simpa using hb.1, ?_⟩
      simpa using hb.2

theorem drainRead_total (data : List Byte) :
    ∀ (reqs : List Nat) (r : Rdr),
    0 ≤ r.thisIdx → r.thisIdx ≤ r.sz → recordInBounds data r →
    (∀ p ∈ reqs, 1 ≤ p) → (r.sz - r.thisIdx).toNat ≤ reqs.length →
    ((drainRead data reqs r).1.length : Int) = r.sz - r.thisIdx ∧
    (drainRead data reqs r).2.thisIdx = (drainRead data reqs r).2.sz ∧
    (drainRead data reqs r).2.sz = r.sz := by
  intro reqs
  induction reqs with
  | nil =>
    intro r h0 h1 hb hr hn
    have hz : r.thisIdx = r.sz := by
      simp only [List.length_nil, Nat.le_zero] at hn
      omega
    simp [drainRead, hz]
  | cons p ps ih =>
    intro r h0 h1 hb hr hn
    by_cases hlt : r.thisIdx < r.sz
    · obtain ⟨hlen, -, hti, hsz, -, -, hrib⟩ := readerRead_step data r p h0 hlt hb
      have hp1 : 1 ≤ p := hr p (by simp)
      have hl1 : 1 ≤ min (p : Int) (r.sz - r.thisIdx) := by omega
      have hih := ih (readerRead data r p).2
        (by omega) (by omega) hrib
        (fun q hq => hr q (by simp [hq]))
        (by simp only [List.length_cons] at hn; omega)
      simp only [drainRead, List.length_append]
      refine ⟨?_, hih.2.1, by rw [hih.2.2, hsz]⟩
      push_cast
      rw [hlen, hih.1, hti, hsz]
      omega
    · have hrr : readerRead data r p = (([], some Err.eof), r) := by
        unfold readerRead
        rw [if_pos (by omega)]
      have hih := ih r h0 h1 hb (fun q hq => hr q (by simp [hq]))
        (by simp only [List.length_cons] at hn; omega)
      simp only [drainRead, hrr, List.nil_append]
      exact hih

/-- C3: for a record state whose cursor is in range and whose unread
remainder lies inside the container, (a) each `Read` before exhaustion
is clamped to `min plen (sz - thisIdx)` and returns exactly that many
bytes with no error; (b) whenever `thisIdx ≥ sz`, `Read` returns
`io.EOF` and leaves the state untouched, regardless of how much
container is left; and (c) draining the record with any sequence of
enough positive-size requests yields exactly `sz - thisIdx` bytes in
total, after which `Read` signals `io.EOF`. -/
theorem readerRead_totals (data : List Byte) (r : Rdr) (reqs : List Nat)
    (h0 : 0 ≤ r.thisIdx) (h1 : r.thisIdx ≤ r.sz) (hb : recordInBounds data r)
    (hr : ∀ p ∈ reqs, 1 ≤ p) (hn : (r.sz - r.thisIdx).toNat ≤ reqs.length) :
    (∀ plen : Nat, r.thisIdx < r.sz →
      ((readerRead data r plen).1.1.length : Int) = min (plen : Int) (r.sz - r.thisIdx) ∧
      (readerRead data r plen).1.2 = none) ∧
    (∀ s : Rdr, s.sz ≤ s.thisIdx → ∀ plen : Nat,
      readerRead data s plen = (([], some Err.eof), s)) ∧
    ((drainRead data reqs r).1.length : Int) = r.sz - r.thisIdx ∧
    (∀ plen : Nat, readerRead data (drainRead data reqs r).2 plen =
      (([], some Err.eof), (drainRead data reqs r).2)) := by
  obtain ⟨htot, hfin, -⟩ := drainRead_total data reqs r h0 h1 hb hr hn
  refine ⟨?_, ?_, htot, ?_⟩
  · intro plen hlt
    obtain ⟨hlen, hne, -⟩ := readerRead_step data r plen h0 hlt hb
    exact ⟨hlen, hne⟩
  · intro s hs plen
    unfold readerRead
    rw [if_pos (by omega)]
  · intro plen
    unfold readerRead
    rw [if_pos (by omega)]

theorem readerRead_totals_witness :
    ((drainRead (S "abcdefgh") [3, 5, 1, 1] (Rdr.mk false 2 0 0 4)).1.length : Int) =
      (4 : Int) - 0 :=
  (readerRead_totals (S "abcdefgh") (Rdr.mk false 2 0 0 4) [3, 5, 1, 1]
    (by decide) (by decide) (by norm_num [recordInBounds, S])
    (by decide) (by decide)).2.2.1

/-- The record-cursor invariant the code actually maintains: the cursor
never goes negative, and stays at most `sz` whenever `sz` is
non-negative (the transport-header fold can push `sz` itself below
zero, after which `Read` reports `io.EOF` immediately). -/
def cursorInv (r : Rdr) : Prop :=
  0 ≤ r.thisIdx ∧ (0 ≤ r.sz → r.thisIdx ≤ r.sz)

theorem readerReadLine_ti_sz (data : List Byte) (r : Rdr) :
    (readerReadLine data r).2.thisIdx = r.thisIdx ∧
    (readerReadLine data r).2.sz = r.sz := by
  unfold readerReadLine
  split
  · split <;> simp
  · simp

theorem skipBlankLoop_ti_sz (data : List Byte) :
    ∀ (fuel : Nat) (r : Rdr),
    (skipBlankLoop data fuel r).2.thisIdx = r.thisIdx ∧
    (skipBlankLoop data fuel r).2.sz = r.sz := by
  intro fuel
  induction fuel with
  | zero => intro r; simp [skipBlankLoop]
  | succ n ih =>
    intro r
    obtain ⟨hti, hsz⟩ := readerReadLine_ti_sz data r
    rcases hq : readerReadLine data r with ⟨⟨slc, er⟩, r'⟩
    rw [hq] at hti hsz
    simp only at hti hsz
    simp only [skipBlankLoop, hq]
    cases er with
    | some e => exact ⟨hti, hsz⟩
    | none =>
      by_cases hz : (trimSpaceBytes slc).length = 0
      · simp only [hz, if_true]
        obtain ⟨h1, h2⟩ := ih r'
        exact ⟨h1.trans hti, h2.trans hsz⟩
      · simp only [hz, if_false]
        exact ⟨hti, hsz⟩

theorem readerNext_ti_sz (data : List Byte) (r : Rdr) :
    (readerNext data r).2.thisIdx = r.thisIdx ∧
    (readerNext data r).2.sz = r.sz := by
  simp only [readerNext]
  split
  · split
    · obtain ⟨h1, h2⟩ := skipBlankLoop_ti_sz data (data.length + 1)
        { r with idx := r.idx + r.sz,
                 pos := r.pos + (r.sz - r.thisIdx).toNat }
      exact ⟨by rw [h1], by rw [h2]⟩
    · simp
  · obtain ⟨h1, h2⟩ := skipBlankLoop_ti_sz data (data.length + 1)
      { r with idx := r.idx + r.sz }
    exact ⟨by rw [h1], by rw [h2]⟩

theorem readerStoreLines_ti (data : List Byte) (r : Rdr) (fp : List Byte) (alter : Bool) :
    (readerStoreLines data r fp alter).2.thisIdx = r.thisIdx ∧
    (alter = false → (readerStoreLines data r fp alter).2.sz = r.sz) := by
  unfold readerStoreLines
  split
  · split
    · refine ⟨by simp, fun ha => ?_⟩
      simp [ha]
    · simp
  · split
    split
    · simp
    · refine ⟨by simp, fun ha => ?_⟩
      simp [ha]

theorem readerRead_inv (data : List Byte) (r : Rdr) (plen : Nat)
    (h : cursorInv r) : cursorInv (readerRead data r plen).2 := by
  obtain ⟨h0, h1⟩ := h
  simp only [readerRead]
  split
  · exact ⟨h0, h1⟩
  · rename_i hlt
    have hsz : 0 ≤ r.sz := by omega
    have hle := h1 hsz
    split
    · refine ⟨?_, fun _ => ?_⟩ <;>
      · dsimp only
        split_ifs <;> omega
    · refine ⟨?_, fun _ => ?_⟩ <;>
      · dsimp only
        split_ifs <;> omega

theorem cursorInv_of_eq {r r' : Rdr} (h : cursorInv r)
    (ht : r'.thisIdx = r.thisIdx) (hs : r'.sz = r.sz) : cursorInv r' := by
  unfold cursorInv at h ⊢
  rw [ht, hs]
  exact h

theorem wNext_state (data : List Byte) (w : WST) (h : cursorInv w.rdr) :
    cursorInv (wNext data w).2.rdr ∧
    ((wNext data w).1 = Except.ok () → (wNext data w).2.rdr.thisIdx = 0) := by
  have hnx := readerNext_ti_sz data w.rdr
  have hsl := readerStoreLines_ti data (readerNext data w.rdr).2 [] false
  constructor
  · simp only [wNext]
    repeat' split
    all_goals first
      | exact cursorInv_of_eq h hnx.1 hnx.2
      | exact cursorInv_of_eq (cursorInv_of_eq h hnx.1 hnx.2) hsl.1 (hsl.2 rfl)
      | exact ⟨le_refl 0, fun hs => hs⟩
  · simp only [wNext]
    repeat' split
    all_goals simp

theorem contPut_rdr (data : List Byte) (c : List (String × ContRec)) (w : WST) :
    (contPut data c w).2.2 = (readAllRecord data w.rdr).2 := by
  simp only [contPut]
  repeat' split
  all_goals rfl

theorem readAllRecord_inv (data : List Byte) (r : Rdr) (h : cursorInv r) :
    cursorInv (readAllRecord data r).2 :=
  readerRead_inv data r (r.sz - r.thisIdx).toNat h

theorem wNextPayload_inv (data : List Byte) :
    ∀ (fuel : Nat) (w : WST), cursorInv w.rdr →
    cursorInv (wNextPayload data fuel w).2.rdr := by
  intro fuel
  induction fuel with
  | zero =>
    intro w h
    exact h
  | succ n ih =>
    intro w h
    obtain ⟨hw, hok⟩ := wNext_state data w h
    simp only [wNextPayload]
    split
    · rename_i e w1 heq
      rw [heq] at hw
      exact hw
    · rename_i u w1 heq
      rw [heq] at hw hok
      have hw1 : cursorInv w1.rdr := hw
      have hti : w1.rdr.thisIdx = 0 := hok rfl
      have hcp := contPut_rdr data (w1.conts.getD []) w1
      have hra : cursorInv (readAllRecord data w1.rdr).2 :=
        readAllRecord_inv data w1.rdr hw1
      have hst := readerStoreLines_ti data w1.rdr w1.hdr.fields true
      split
      · split
        · rename_i e cmap2 r2 heq
          have hr2 : r2 = (readAllRecord data w1.rdr).2 := by
            rw [← hcp, heq]
          show cursorInv r2
          rw [hr2]
          exact hra
        · rename_i cr cmap2 r2 heq
          have hr2 : r2 = (readAllRecord data w1.rdr).2 := by
            rw [← hcp, heq]
          show cursorInv r2
          rw [hr2]
          exact hra
        · rename_i cmap2 r2 heq
          have hr2 : r2 = (readAllRecord data w1.rdr).2 := by
            rw [← hcp, heq]
          refine ih _ ?_
          show cursorInv r2
          rw [hr2]
          exact hra
      · split
        · exact hw1
        · exact hw1
        · split
          · refine ⟨?_, fun hs => ?_⟩
            · show (0 : Int) ≤ (readerStoreLines data w1.rdr w1.hdr.fields true).2.thisIdx
              rw [hst.1, hti]
            · show (readerStoreLines data w1.rdr w1.hdr.fields true).2.thisIdx ≤ _
              rw [hst.1, hti]
              exact hs
          · exact hw1
        · exact ih w1 hw1

/-- States of the WARC reader reachable from a freshly opened reader
(either mode) by any sequence of `Next`, `NextPayload` and `Read` calls
(`Slice` and `EofSlice` are pure and do not change the state; `Reset`
returns to the initial state). -/
inductive WReach (data : List Byte) : WST → Prop
  | init (sl : Bool) : WReach data ⟨WARCHeader.empty, Rdr.init sl, none⟩
  | next (w : WST) : WReach data w → WReach data (wNext data w).2
  | nextPayload (w : WST) (fuel : Nat) : WReach data w →
      WReach data (wNextPayload data fuel w).2
  | read (w : WST) (plen : Nat) : WReach data w →
      WReach data { w with rdr := (readerRead data w.rdr plen).2 }

def c4data : List Byte :=
  S "WARC/1.0\nWARC-Type: response\nWARC-Date: 2015-07-08T21:55:13Z\nWARC-Record-ID: <urn:uuid:x>\nContent-Length: 2\n\nHTTP/1.1 200 OK\n\nhello"

set_option maxRecDepth 4000 in
/-- C4 counterexample: a response record declaring `Content-Length: 2`
whose payload opens with a 17-byte `HTTP/` transport header block.
`NextPayload` succeeds, but the header fold subtracts the folded bytes
from `sz`, leaving `sz = 2 - 17 = -15 < 0 = thisIdx` in both streaming
and slicer mode — the claimed invariant `thisIdx ≤ sz` (and `0 ≤ sz`)
does not hold in this reachable state. -/
theorem transport_fold_breaks_cursor_claim :
    ((wNextPayload c4data 2 ⟨WARCHeader.empty, Rdr.init false, none⟩).1 =
       Except.ok RecView.rdr ∧
     (wNextPayload c4data 2 ⟨WARCHeader.empty, Rdr.init false, none⟩).2.rdr.thisIdx = 0 ∧
     (wNextPayload c4data 2 ⟨WARCHeader.empty, Rdr.init false, none⟩).2.rdr.sz = -15 ∧
     ¬ ((wNextPayload c4data 2 ⟨WARCHeader.empty, Rdr.init false, none⟩).2.rdr.thisIdx ≤
        (wNextPayload c4data 2 ⟨WARCHeader.empty, Rdr.init false, none⟩).2.rdr.sz)) ∧
    ((wNextPayload c4data 2 ⟨WARCHeader.empty, Rdr.init true, none⟩).2.rdr.thisIdx = 0 ∧
     (wNextPayload c4data 2 ⟨WARCHeader.empty, Rdr.init true, none⟩).2.rdr.sz = -15 ∧
     ¬ ((wNextPayload c4data 2 ⟨WARCHeader.empty, Rdr.init true, none⟩).2.rdr.thisIdx ≤
        (wNextPayload c4data 2 ⟨WARCHeader.empty, Rdr.init true, none⟩).2.rdr.sz)) := by
  refine ⟨⟨rfl, rfl, rfl, ?_⟩, rfl, rfl, ?_⟩ <;> decide

/-- C4 (amended): in every state reachable by open/next/nextPayload/read
(slice and eofSlice do not mutate), the record cursor satisfies
`0 ≤ thisIdx`, and `thisIdx ≤ sz` whenever `0 ≤ sz`; the transport-header
fold can push `sz` itself below zero (see the counterexample), after
which `Read` reports `io.EOF` immediately, and the cursor stays
non-negative. -/
theorem warc_cursor_invariant (data : List Byte) (w : WST) (h : WReach data w) :
    0 ≤ w.rdr.thisIdx ∧ (0 ≤ w.rdr.sz → w.rdr.thisIdx ≤ w.rdr.sz) := by
  have hinv : cursorInv w.rdr := by
    induction h with
    | init sl => exact ⟨le_refl 0, fun _ => le_refl 0⟩
    | next w hw ih => exact (wNext_state data w ih).1
    | nextPayload w fuel hw ih => exact wNextPayload_inv data fuel w ih
    | read w plen hw ih => exact readerRead_inv data w.rdr plen ih
  exact hinv

theorem warc_cursor_invariant_witness :
    0 ≤ (wNextPayload c4data 2 ⟨WARCHeader.empty, Rdr.init false, none⟩).2.rdr.thisIdx ∧
    (0 ≤ (wNextPayload c4data 2 ⟨WARCHeader.empty, Rdr.init false, none⟩).2.rdr.sz →
     (wNextPayload c4data 2 ⟨WARCHeader.empty, Rdr.init false, none⟩).2.rdr.thisIdx ≤
     (wNextPayload c4data 2 ⟨WARCHeader.empty, Rdr.init false, none⟩).2.rdr.sz) :=
  warc_cursor_invariant c4data _
    (WReach.nextPayload ⟨WARCHeader.empty, Rdr.init false, none⟩ 2 (WReach.init false))

/-- `skipspace` is zero on a buffer that does not start with space/tab. -/
theorem skipspaceGo_zero {b : List Byte}
    (h : ∀ c, b.head? = some c → c ≠ 32 ∧ c ≠ 9) : skipspaceGo b = 0 := by
  cases b with
  | nil => rfl
  | cons c rest =>
    obtain ⟨h1, h2⟩ := h c rfl
    unfold skipspaceGo
    rw [List.takeWhile_cons]
    have hc : (c == 32 || c == 9) = false := by
      simp only [Bool.or_eq_false_iff, beq_eq_false_iff_ne]
      exact ⟨h1, h2⟩
    rw [hc]
    rfl

/-- `skipspace` of a cons. -/
theorem skipspaceGo_cons (c : Byte) (rest : List Byte) :
    skipspaceGo (c :: rest) =
      if (c == 32 || c == 9) = true then skipspaceGo rest + 1 else 0 := by
  unfold skipspaceGo
  rw [List.takeWhile_cons]
  split
  · simp [Nat.add_comm]
  · rfl

/-- A buffer ending in a newline is not all space/tab. -/
theorem skipspaceGo_lt : ∀ {a : List Byte}, a.getLast? = some 10 →
    skipspaceGo a < a.length := by
  intro a
  induction a with
  | nil => intro h; cases h
  | cons c rest ih =>
    intro h
    rw [skipspaceGo_cons]
    cases hr : rest with
    | nil =>
      subst hr
      simp only [List.getLast?_singleton, Option.some_inj] at h
      subst h
      norm_num
    | cons d ds =>
      subst hr
      rw [List.getLast?_cons_cons] at h
      have := ih h
      split <;> simp only [List.length_cons] at this ⊢ <;> omega

/-- `skipspace` ignores a suffix when the space run ends inside `a`. -/
theorem skipspaceGo_append : ∀ {a : List Byte} (b : List Byte),
    skipspaceGo a < a.length → skipspaceGo (a ++ b) = skipspaceGo a := by
  intro a
  induction a with
  | nil => intro b h; simp at h
  | cons c rest ih =>
    intro b h
    rw [List.cons_append, skipspaceGo_cons, skipspaceGo_cons]
    rw [skipspaceGo_cons] at h
    split
    · rename_i hc
      rw [if_pos hc] at h
      simp only [List.length_cons] at h
      rw [ih b (by omega)]
    · rfl

/-- A nonempty list has a last element. -/
theorem getLast?_ne_none : ∀ {l : List Byte}, l ≠ [] → l.getLast? ≠ none := by
  intro l
  induction l with
  | nil => intro h; exact absurd rfl h
  | cons c rest ih =>
    intro _ hc
    cases rest with
    | nil => rw [List.getLast?_singleton] at hc; cases hc
    | cons d ds =>
      rw [List.getLast?_cons_cons] at hc
      exact ih (by simp) hc

/-- The last byte survives dropping fewer than all bytes. -/
theorem getLast?_drop_eq {a : List Byte} {m : Nat} (h : m < a.length) :
    (a.drop m).getLast? = a.getLast? := by
  have hne : a.drop m ≠ [] := by
    intro hc
    have hlen := congrArg List.length hc
    simp only [List.length_drop, List.length_nil] at hlen
    omega
  conv_rhs => rw [← List.take_append_drop m a]
  cases hl : (a.drop m).getLast? with
  | none => exact absurd hl (getLast?_ne_none hne)
  | some x =>
    rw [List.getLast?_append, hl]
    rfl

/-- A buffer ending in a newline contains a newline. -/
theorem idxNL_isSome_of_last : ∀ {a : List Byte}, a.getLast? = some 10 →
    (idxNL a).isSome = true := by
  intro a
  induction a with
  | nil => intro h; cases h
  | cons c rest ih =>
    intro h
    unfold idxNL
    by_cases hc : (c == NLb) = true
    · rw [if_pos hc]; rfl
    · rw [if_neg hc]
      cases hr : rest with
      | nil =>
        subst hr
        simp only [List.getLast?_singleton, Option.some_inj] at h
        subst h
        simp [NLb] at hc
      | cons d ds =>
        subst hr
        rw [List.getLast?_cons_cons] at h
        have := ih h
        cases hi : idxNL (d :: ds) with
        | none => rw [hi] at this; cases this
        | some i => rfl

/-- A successful `foldCont` leaves a buffer no longer than its input. -/
theorem foldCont_some_length : ∀ (fuel : Nat) (ret b l b2 : List Byte),
    foldCont fuel ret b = (l, some b2) → b2.length ≤ b.length := by
  intro fuel
  induction fuel with
  | zero => intro ret b l b2 h; cases h
  | succ n ih =>
    intro ret b l b2 h
    simp only [foldCont] at h
    split at h
    · injection h with h1 h2
      injection h2 with h2
      rw [← h2]
    · split at h
      · cases h
      · have hlen := ih _ _ _ _ h
        simp only [List.length_drop] at hlen
        omega

/-- One-step unfolding of `foldCont`. -/
theorem foldCont_succ (fuel : Nat) (ret buf : List Byte) :
    foldCont (fuel + 1) ret buf =
      if skipspaceGo buf = 0 then (ret, some buf)
      else
        if (readlineGo (buf.drop (skipspaceGo buf))).2 = 0 then
          ((ret ++ [32]) ++ (readlineGo (buf.drop (skipspaceGo buf))).1, none)
        else
          foldCont fuel ((ret ++ [32]) ++ (readlineGo (buf.drop (skipspaceGo buf))).1)
            ((buf.drop (skipspaceGo buf)).drop
              (readlineGo (buf.drop (skipspaceGo buf))).2) := rfl

/-- One-step unfolding of `foldedLinesF`. -/
theorem foldedLinesF_succ (fuel : Nat) (buf : List Byte) :
    foldedLinesF (fuel + 1) buf =
      if (readlineGo buf).2 = 0 then [(readlineGo buf).1]
      else
        match foldCont (buf.length + 1) (readlineGo buf).1 (buf.drop (readlineGo buf).2) with
        | (line, none) => [line]
        | (line, some buf2) => line :: foldedLinesF fuel buf2 := rfl

/-- `foldedLinesF` does not depend on the fuel once it exceeds the buffer
length. -/
theorem foldedLinesF_fuel : ∀ (k f1 f2 : Nat) (buf : List Byte),
    buf.length ≤ k → buf.length < f1 → buf.length < f2 →
    foldedLinesF f1 buf = foldedLinesF f2 buf := by
  intro k
  induction k with
  | zero =>
    intro f1 f2 buf hk h1 h2
    have hb : buf = [] := by
      cases buf with
      | nil => rfl
      | cons c cs => simp at hk
    subst hb
    cases f1 with
    | zero => omega
    | succ a =>
      cases f2 with
      | zero => omega
      | succ b => rfl
  | succ n ih =>
    intro f1 f2 buf hk h1 h2
    cases f1 with
    | zero => omega
    | succ a =>
      cases f2 with
      | zero => omega
      | succ b =>
        rw [foldedLinesF_succ, foldedLinesF_succ]
        by_cases hr : (readlineGo buf).2 = 0
        · rw [if_pos hr, if_pos hr]
        · rw [if_neg hr, if_neg hr]
          cases hfc : foldCont (buf.length + 1) (readlineGo buf).1
              (buf.drop (readlineGo buf).2) with
          | mk line ob =>
            cases ob with
            | none => rfl
            | some buf2 =>
              show line :: foldedLinesF a buf2 = line :: foldedLinesF b buf2
              have hlt := foldCont_some_length _ _ _ _ _ hfc
              have hadv := readlineGo_snd_le buf
              simp only [List.length_drop] at hlt
              congr 1
              exact ih a b buf2 (by omega) (by omega) (by omega)

/-- `readline` on a buffer whose first newline is at `nl`. -/
theorem readlineGo_some {buf : List Byte} {nl : Nat} (h : idxNL buf = some nl) :
    readlineGo buf = (buf.take nl, if nl = buf.length - 1 then 0 else nl + 1) := by
  unfold readlineGo
  rw [h]
  show (if nl = buf.length - 1 then (buf.take nl, 0) else (buf.take nl, nl + 1)) = _
  split_ifs <;> rfl

/-- `foldCont` on `a ++ b` mirrors `foldCont` on `a` (a block of
newline-terminated lines) while `a` lasts, and stops cleanly at `b` when
`b` does not start with space or tab. -/
theorem foldCont_append : ∀ (k f1 f2 : Nat) (ret a b : List Byte),
    a.length ≤ k → a.length < f1 → a.length + 1 < f2 →
    a ≠ [] → a.getLast? = some 10 →
    b ≠ [] → (∀ c, b.head? = some c → c ≠ 32 ∧ c ≠ 9) →
    (∀ l a2, foldCont f1 ret a = (l, some a2) →
       foldCont f2 ret (a ++ b) = (l, some (a2 ++ b)) ∧
       a2 ≠ [] ∧ a2.getLast? = some 10 ∧ a2.length ≤ a.length) ∧
    (∀ l, foldCont f1 ret a = (l, none) →
       foldCont f2 ret (a ++ b) = (l, some b)) := by
  intro k
  induction k with
  | zero =>
    intro f1 f2 ret a b hk h1 h2 hane halast hbne hbhead
    exact absurd (List.length_eq_zero.mp (Nat.le_zero.mp hk)) hane
  | succ n ih =>
    intro f1 f2 ret a b hk h1 h2 hane halast hbne hbhead
    have halen : 1 ≤ a.length := by
      cases a with
      | nil => exact absurd rfl hane
      | cons c cs => simp
    cases f1 with
    | zero => omega
    | succ a1 =>
      cases f2 with
      | zero => omega
      | succ b1 =>
        rw [foldCont_succ, foldCont_succ]
        have hslt : skipspaceGo a < a.length := skipspaceGo_lt halast
        have hsab : skipspaceGo (a ++ b) = skipspaceGo a :=
          skipspaceGo_append b hslt
        rw [hsab]
        by_cases hs : skipspaceGo a = 0
        · rw [if_pos hs, if_pos hs]
          constructor
          · intro l a2 heq
            injection heq with e1 e2
            injection e2 with e2
            subst e1
            subst e2
            exact ⟨rfl, hane, halast, le_refl _⟩
          · intro l heq
            injection heq with e1 e2
            cases e2
        · rw [if_neg hs, if_neg hs]
          rw [List.drop_append_of_le_length (le_of_lt hslt)]
          have hb1ne : a.drop (skipspaceGo a) ≠ [] := by
            intro hc
            have hlen := congrArg List.length hc
            simp only [List.length_drop, List.length_nil] at hlen
            omega
          have hb1last : (a.drop (skipspaceGo a)).getLast? = some 10 := by
            rw [getLast?_drop_eq hslt]
            exact halast
          obtain ⟨nl, hnl⟩ : ∃ nl, idxNL (a.drop (skipspaceGo a)) = some nl := by
            have hi := idxNL_isSome_of_last hb1last
            cases hh : idxNL (a.drop (skipspaceGo a)) with
            | none => rw [hh] at hi; cases hi
            | some i => exact ⟨i, rfl⟩
          have hnll := idxNL_lt_length hnl
          have hb1len : (a.drop (skipspaceGo a)).length = a.length - skipspaceGo a := by
            simp [List.length_drop]
          have hnlab : idxNL (a.drop (skipspaceGo a) ++ b) = some nl :=
            idxNL_append_left b hnl
          have h1b : (readlineGo (a.drop (skipspaceGo a) ++ b)).1 =
              (a.drop (skipspaceGo a)).take nl := by
            rw [readlineGo_some hnlab]
            exact List.take_append_of_le_length (le_of_lt hnll)
          have h2b : (readlineGo (a.drop (skipspaceGo a) ++ b)).2 = nl + 1 := by
            rw [readlineGo_some hnlab]
            refine if_neg ?_
            simp only [List.length_append]
            cases b with
            | nil => exact absurd rfl hbne
            | cons c cs =>
              simp only [List.length_cons]
              omega
          have h1a : (readlineGo (a.drop (skipspaceGo a))).1 =
              (a.drop (skipspaceGo a)).take nl := by
            rw [readlineGo_some hnl]
          rw [h1a, h1b, h2b]
          rw [if_neg (show ¬ (nl + 1 = 0) by omega)]
          by_cases hc : nl = (a.drop (skipspaceGo a)).length - 1
          · have h2a : (readlineGo (a.drop (skipspaceGo a))).2 = 0 := by
              rw [readlineGo_some hnl]
              exact if_pos hc
            rw [h2a]
            rw [if_pos (show (0 : Nat) = 0 from rfl)]
            have hdro : (a.drop (skipspaceGo a) ++ b).drop (nl + 1) = b := by
              rw [show nl + 1 = (a.drop (skipspaceGo a)).length by omega]
              exact List.drop_left _ _
            rw [hdro]
            have hcomb : ∀ r : List Byte, foldCont b1 r b = (r, some b) := by
              intro r
              cases b1 with
              | zero => omega
              | succ c1 =>
                rw [foldCont_succ]
                rw [if_pos (skipspaceGo_zero hbhead)]
            rw [hcomb]
            constructor
            · intro l a2 heq
              injection heq with e1 e2
              cases e2
            · intro l heq
              injection heq with e1 e2
              subst e1
              rfl
          · have h2a : (readlineGo (a.drop (skipspaceGo a))).2 = nl + 1 := by
              rw [readlineGo_some hnl]
              exact if_neg hc
            rw [h2a]
            rw [if_neg (show ¬ (nl + 1 = 0) by omega)]
            have hlt2 : nl + 1 < (a.drop (skipspaceGo a)).length := by omega
            have hdro : (a.drop (skipspaceGo a) ++ b).drop (nl + 1) =
                (a.drop (skipspaceGo a)).drop (nl + 1) ++ b :=
              List.drop_append_of_le_length (by omega)
            rw [hdro]
            have ha2ne : (a.drop (skipspaceGo a)).drop (nl + 1) ≠ [] := by
              intro hc2
              have hlen := congrArg List.length hc2
              simp only [List.length_drop, List.length_nil] at hlen
              omega
            have ha2last : ((a.drop (skipspaceGo a)).drop (nl + 1)).getLast? = some 10 := by
              rw [getLast?_drop_eq hlt2]
              exact hb1last
            have ha2len : ((a.drop (skipspaceGo a)).drop (nl + 1)).length =
                a.length - skipspaceGo a - (nl + 1) := by
              simp only [List.length_drop]
            have hihx := ih a1 b1 ((ret ++ [32]) ++ (a.drop (skipspaceGo a)).take nl)
              ((a.drop (skipspaceGo a)).drop (nl + 1)) b
              (by omega) (by omega) (by omega) ha2ne ha2last hbne hbhead
            constructor
            · intro l a2 heq
              obtain ⟨hcomb2, hp1, hp2, hp3⟩ := hihx.1 l a2 heq
              exact ⟨hcomb2, hp1, hp2, by omega⟩
            · intro l heq
              exact hihx.2 l heq

/-- The `getLines` iterator of a block of newline-terminated lines
followed by more bytes yields the block's logical lines, then the
rest's, provided the rest does not start with a continuation
(space/tab). -/
theorem foldedLines_append : ∀ (k : Nat) (a b : List Byte),
    a.length ≤ k → a ≠ [] → a.getLast? = some 10 →
    b ≠ [] → (∀ c, b.head? = some c → c ≠ 32 ∧ c ≠ 9) →
    foldedLines (a ++ b) = foldedLines a ++ foldedLines b := by
  intro k
  induction k with
  | zero =>
    intro a b hk hane halast hbne hbhead
    exact absurd (List.length_eq_zero.mp (Nat.le_zero.mp hk)) hane
  | succ n ih =>
    intro a b hk hane halast hbne hbhead
    have halen : 1 ≤ a.length := by
      cases a with
      | nil => exact absurd rfl hane
      | cons c cs => simp
    obtain ⟨nl, hnl⟩ : ∃ nl, idxNL a = some nl := by
      have hi := idxNL_isSome_of_last halast
      cases hh : idxNL a with
      | none => rw [hh] at hi; cases hi
      | some i => exact ⟨i, rfl⟩
    have hnll := idxNL_lt_length hnl
    have hnlab : idxNL (a ++ b) = some nl := idxNL_append_left b hnl
    have h1ab : (readlineGo (a ++ b)).1 = a.take nl := by
      rw [readlineGo_some hnlab]
      exact List.take_append_of_le_length (le_of_lt hnll)
    have h2ab : (readlineGo (a ++ b)).2 = nl + 1 := by
      rw [readlineGo_some hnlab]
      refine if_neg ?_
      simp only [List.length_append]
      cases b with
      | nil => exact absurd rfl hbne
      | cons c cs =>
        simp only [List.length_cons]
        omega
    have h1a : (readlineGo a).1 = a.take nl := by
      rw [readlineGo_some hnl]
    unfold foldedLines
    rw [show (a ++ b).length + 1 = (a ++ b).length + 1 from rfl]
    rw [foldedLinesF_succ ((a ++ b).length) (a ++ b)]
    rw [foldedLinesF_succ a.length a]
    rw [h1ab, h2ab, h1a]
    rw [if_neg (show ¬ (nl + 1 = 0) by omega)]
    by_cases hcl : nl = a.length - 1
    · have h2a : (readlineGo a).2 = 0 := by
        rw [readlineGo_some hnl]
        exact if_pos hcl
      rw [h2a]
      rw [if_pos (show (0 : Nat) = 0 from rfl)]
      have hdro : (a ++ b).drop (nl + 1) = b := by
        rw [show nl + 1 = a.length by omega]
        exact List.drop_left _ _
      rw [hdro]
      have hfcb : foldCont ((a ++ b).length + 1) (a.take nl) b = (a.take nl, some b) := by
        rw [show (a ++ b).length + 1 = (a ++ b).length + 1 from rfl]
        rw [foldCont_succ]
        rw [if_pos (skipspaceGo_zero hbhead)]
      rw [hfcb]
      show (a.take nl) :: foldedLinesF ((a ++ b).length) b =
        [a.take nl] ++ foldedLinesF (b.length + 1) b
      rw [List.singleton_append]
      congr 1
      refine foldedLinesF_fuel b.length _ _ b (le_refl _) ?_ (by omega)
      simp only [List.length_append]
      omega
    · have h2a : (readlineGo a).2 = nl + 1 := by
        rw [readlineGo_some hnl]
        exact if_neg hcl
      rw [h2a]
      rw [if_neg (show ¬ (nl + 1 = 0) by omega)]
      have hlt2 : nl + 1 < a.length := by omega
      have hdro : (a ++ b).drop (nl + 1) = a.drop (nl + 1) ++ b :=
        List.drop_append_of_le_length (by omega)
      rw [hdro]
      have hapne : a.drop (nl + 1) ≠ [] := by
        intro hc2
        have hlen := congrArg List.length hc2
        simp only [List.length_drop, List.length_nil] at hlen
        omega
      have haplast : (a.drop (nl + 1)).getLast? = some 10 := by
        rw [getLast?_drop_eq hlt2]
        exact halast
      have haplen : (a.drop (nl + 1)).length = a.length - (nl + 1) := by
        simp only [List.length_drop]
      have hfca := foldCont_append (a.drop (nl + 1)).length (a.length + 1)
        ((a ++ b).length + 1) (a.take nl) (a.drop (nl + 1)) b
        (le_refl _) (by omega)
        (by simp only [List.length_append]; omega)
        hapne haplast hbne hbhead
      cases hfc : foldCont (a.length + 1) (a.take nl) (a.drop (nl + 1)) with
      | mk line ob =>
        cases ob with
        | none =>
          rw [hfca.2 line hfc]
          show line :: foldedLinesF ((a ++ b).length) b =
            [line] ++ foldedLinesF (b.length + 1) b
          rw [List.singleton_append]
          congr 1
          refine foldedLinesF_fuel b.length _ _ b (le_refl _) ?_ (by omega)
          simp only [List.length_append]
          omega
        | some a2 =>
          obtain ⟨hcomb, ha2ne, ha2last, ha2len⟩ := hfca.1 line a2 hfc
          rw [hcomb]
          show line :: foldedLinesF ((a ++ b).length) (a2 ++ b) =
            (line :: foldedLinesF a.length a2) ++ foldedLinesF (b.length + 1) b
          rw [List.cons_append]
          congr 1
          have hstep1 : foldedLinesF ((a ++ b).length) (a2 ++ b) =
              foldedLines (a2 ++ b) := by
            refine foldedLinesF_fuel (a2 ++ b).length _ _ (a2 ++ b) (le_refl _) ?_ (by omega)
            simp only [List.length_append] at *
            omega
          have hstep2 : foldedLinesF a.length a2 = foldedLines a2 := by
            refine foldedLinesF_fuel a2.length _ _ a2 (le_refl _) ?_ (by omega)
            simp only [List.length_drop] at ha2len
            omega
          rw [hstep1, hstep2]
          have := ih a2 b (by simp only [List.length_drop] at ha2len; omega)
            ha2ne ha2last hbne hbhead
          rw [this]
          rfl

/-- `getAllValues` pairs distribute over a clean line-block boundary. -/
theorem pairsOf_append {a b : List Byte} (hane : a ≠ [])
    (halast : a.getLast? = some 10) (hbne : b ≠ [])
    (hbhead : ∀ c, b.head? = some c → c ≠ 32 ∧ c ≠ 9) :
    pairsOf (a ++ b) = pairsOf a ++ pairsOf b := by
  unfold pairsOf
  rw [foldedLines_append a.length a b (le_refl _) hane halast hbne hbhead]
  exact List.filterMap_append _ _ _

/-- `bytes.Split` on a separator-free buffer returns the whole buffer. -/
theorem splitOnByte_no_sep : ∀ {sep : Byte} {l : List Byte},
    ¬ sep ∈ l → splitOnByte sep l = [l] := by
  intro sep l
  induction l with
  | nil => intro _; rfl
  | cons b bs ih =>
    intro h
    have hb : ¬ (b == sep) = true := by
      simp only [beq_iff_eq]
      intro hc
      exact h (by rw [hc]; exact List.mem_cons_self _ _)
    unfold splitOnByte
    rw [if_neg hb]
    rw [ih (fun hc => h (List.mem_cons_of_mem _ hc))]

/-- A short colon-free newline-terminated line yields no field pair. -/
theorem pairsOf_term {term : List Byte}
    (hidx : idxNL term = some (term.length - 1)) (hcolon : ¬ 58 ∈ term) :
    pairsOf term = [] := by
  have htne : term ≠ [] := by
    intro hc
    rw [hc] at hidx
    cases hidx
  have h2a : (readlineGo term).2 = 0 := by
    rw [readlineGo_some hidx]
    exact if_pos rfl
  have h1a : (readlineGo term).1 = term.take (term.length - 1) := by
    rw [readlineGo_some hidx]
  unfold pairsOf foldedLines
  cases hl : term.length with
  | zero => exact absurd (List.length_eq_zero.mp hl) htne
  | succ m =>
    rw [foldedLinesF_succ]
    rw [if_pos h2a, h1a]
    have hnc : ¬ 58 ∈ term.take (term.length - 1) := by
      intro hc
      exact hcolon (List.mem_of_mem_take hc)
    have hfx : splitOnByte 58 (term.take (term.length - 1)) =
        [term.take (term.length - 1)] := splitOnByte_no_sep hnc
    simp [hfx]

/-- The last byte of a flattened block of newline-terminated lines. -/
theorem flatten_last10 : ∀ {bl : List (List Byte)}, bl ≠ [] →
    (∀ l ∈ bl, l ≠ [] ∧ l.getLast? = some 10) →
    bl.flatten ≠ [] ∧ bl.flatten.getLast? = some 10 := by
  intro bl
  induction bl with
  | nil => intro h _; exact absurd rfl h
  | cons l rest ih =>
    intro _ hall
    obtain ⟨hlne, hllast⟩ := hall l (List.mem_cons_self _ _)
    cases hr : rest with
    | nil =>
      subst hr
      simp only [List.flatten_cons, List.flatten_nil, List.append_nil]
      exact ⟨hlne, hllast⟩
    | cons m ms =>
      subst hr
      obtain ⟨hfne, hflast⟩ := ih (by simp)
        (fun x hx => hall x (List.mem_cons_of_mem _ hx))
      refine ⟨?_, ?_⟩
      · simp only [List.flatten_cons]
        intro hc
        rw [List.append_eq_nil] at hc
        exact hfne hc.2
      · simp only [List.flatten_cons]
        simp only [List.flatten_cons] at hfne hflast
        cases hfl : (m ++ ms.flatten).getLast? with
        | none => exact absurd hfl (getLast?_ne_none hfne)
        | some x =>
          rw [List.getLast?_append, hfl]
          rw [hfl] at hflast
          exact hflast

/-- A block of nonempty lines has at least as many bytes as lines. -/
theorem flatten_len_ge : ∀ {bl : List (List Byte)},
    (∀ l ∈ bl, l ≠ []) → bl.length ≤ bl.flatten.length := by
  intro bl
  induction bl with
  | nil => intro _; simp
  | cons l rest ih =>
    intro h
    have hlne := h l (List.mem_cons_self _ _)
    have hl1 : 1 ≤ l.length := by
      cases l with
      | nil => exact absurd rfl hlne
      | cons c cs => simp
    have := ih (fun x hx => h x (List.mem_cons_of_mem _ hx))
    simp only [List.length_cons, List.flatten_cons, List.length_append]
    omega

/-- One-step unfolding of `stStLoop` when a newline is in view. -/
theorem stStLoop_succ_some (data : List Byte) (fuel pos : Nat) (acc : List Byte)
    {i : Nat} (h : idxNL (data.drop pos) = some i) :
    stStLoop data (fuel + 1) pos acc =
      if i + 1 < 3 then (acc ++ (data.drop pos).take (i + 1), pos + i + 1, false)
      else stStLoop data fuel (pos + i + 1) (acc ++ (data.drop pos).take (i + 1)) := by
  show (match idxNL (data.drop pos) with
    | none => (acc, data.length, true)
    | some i =>
      if i + 1 < 3 then (acc ++ (data.drop pos).take (i + 1), pos + i + 1, false)
      else stStLoop data fuel (pos + i + 1) (acc ++ (data.drop pos).take (i + 1))) = _
  rw [h]

/-- The streaming `storeLines` scan over a block of full header lines
(raw length at least 3, newline-terminated) followed by a short
terminator line consumes exactly the block and the terminator. -/
theorem stStLoop_lines (data : List Byte) :
    ∀ (bl : List (List Byte)) (fuel pos : Nat) (acc term rest : List Byte),
    data.drop pos = bl.flatten ++ (term ++ rest) →
    (∀ l ∈ bl, 3 ≤ l.length ∧ idxNL l = some (l.length - 1)) →
    term.length < 3 → idxNL term = some (term.length - 1) →
    bl.length + 1 ≤ fuel →
    stStLoop data fuel pos acc =
      (acc ++ (bl.flatten ++ term), pos + (bl.flatten ++ term).length, false) := by
  intro bl
  induction bl with
  | nil =>
    intro fuel pos acc term rest hP hbl htl hti hf
    have htne : term ≠ [] := by
      intro hc
      rw [hc] at hti
      cases hti
    have htlen : 1 ≤ term.length := by
      cases term with
      | nil => exact absurd rfl htne
      | cons c cs => simp
    cases fuel with
    | zero => omega
    | succ f =>
      simp only [List.flatten_nil, List.nil_append] at hP ⊢
      have hidx : idxNL (data.drop pos) = some (term.length - 1) := by
        rw [hP]
        exact idxNL_append_left rest hti
      rw [stStLoop_succ_some data f pos acc hidx]
      rw [if_pos (by omega)]
      rw [hP]
      rw [show term.length - 1 + 1 = term.length by omega]
      rw [List.take_left]
      simp only [Prod.mk.injEq]
      exact ⟨trivial, by omega, trivial⟩
  | cons l ls ih =>
    intro fuel pos acc term rest hP hbl htl hti hf
    obtain ⟨hl3, hlidx⟩ := hbl l (List.mem_cons_self _ _)
    cases fuel with
    | zero => simp at hf
    | succ f =>
      simp only [List.flatten_cons] at hP
      rw [List.append_assoc] at hP
      have hidx : idxNL (data.drop pos) = some (l.length - 1) := by
        rw [hP]
        exact idxNL_append_left _ hlidx
      rw [stStLoop_succ_some data f pos acc hidx]
      rw [if_neg (by omega)]
      rw [hP]
      rw [show l.length - 1 + 1 = l.length by omega]
      rw [List.take_left]
      have hdrop : data.drop (pos + (l.length - 1) + 1) =
          ls.flatten ++ (term ++ rest) := by
        rw [show pos + (l.length - 1) + 1 = pos + l.length by omega]
        rw [show pos + l.length = pos + l.length from rfl]
        have : data.drop (pos + l.length) = (data.drop pos).drop l.length := by
          rw [List.drop_drop]
        rw [this, hP, List.drop_left]
      have hih := ih f (pos + (l.length - 1) + 1) (acc ++ l) term rest hdrop
        (fun x hx => hbl x (List.mem_cons_of_mem _ hx)) htl hti
        (by simp only [List.length_cons] at hf; omega)
      rw [hih]
      simp only [Prod.mk.injEq, List.flatten_cons]
      refine ⟨by simp [List.append_assoc], ?_, trivial⟩
      simp only [List.length_append]
      omega


/-- Abstract layout of one well-formed WARC record in a container: some
blank separator lines, the version line (consumed by `next`'s skip
loop), the header lines, the blank-line terminator, and the declared
content. -/
structure WRec where
  blanks : List (List Byte)
  magic : List Byte
  hl : List (List Byte)
  term : List Byte
  content : List Byte
  deriving DecidableEq, Repr

/-- The bytes a record contributes to the container. -/
def WRec.bytes (w : WRec) : List Byte :=
  w.blanks.flatten ++ (w.magic ++ ((w.hl.flatten ++ w.term) ++ w.content))

/-- Well-formedness of one record: every line is newline-terminated with
no interior newline; separator lines are blank; the version line is
not; header lines are at least 4 bytes raw (so both the streaming
3-raw-byte rule and the slicer 3-content-byte rule pass over them); the
terminator is at most 2 bytes raw (so both rules stop at it); the date
parses; the declared `Content-Length` parses to exactly the content
size; and the record is unsegmented. -/
def WRec.wf (w : WRec) : Prop :=
  (∀ l ∈ w.blanks, idxNL l = some (l.length - 1) ∧ trimSpaceBytes l = []) ∧
  idxNL w.magic = some (w.magic.length - 1) ∧
  trimSpaceBytes w.magic ≠ [] ∧
  (∀ l ∈ w.hl, idxNL l = some (l.length - 1) ∧ 4 ≤ l.length) ∧
  idxNL w.term = some (w.term.length - 1) ∧
  w.term.length ≤ 2 ∧
  (parseRFC3339 (getSelectValue (w.hl.flatten ++ w.term) "WARC-Date")).isSome = true ∧
  parseGoInt (getSelectValue (w.hl.flatten ++ w.term) "Content-Length") =
    some ((w.content.length : Nat) : Int) ∧
  getSelectValue (w.hl.flatten ++ w.term) "WARC-Segment-Number" = []

/-- A user loop over `Next`: read the field map and drain the record
content, `n` times or until the first error. -/
def runNext (data : List Byte) : Nat → WST → List (List (String × String) × List Byte) × Option Err
  | 0, _ => ([], none)
  | n + 1, w =>
    match wNext data w with
    | (Except.error e, _) => ([], some e)
    | (Except.ok _, w1) =>
      let ra := readAllRecord data w1.rdr
      let res := runNext data n { w1 with rdr := ra.2 }
      ((pairsOf w1.hdr.fields, ra.1) :: res.1, res.2)

/-- `indexBlankLine` on a block of full header lines (at least 3 content
bytes each) followed by a short terminator stops exactly after the
terminator. -/
theorem indexBlankLine_lines : ∀ (hl : List (List Byte)) (term z : List Byte),
    (∀ l ∈ hl, idxNL l = some (l.length - 1) ∧ 4 ≤ l.length) →
    idxNL term = some (term.length - 1) → term.length ≤ 2 →
    indexBlankLine (hl.flatten ++ (term ++ z)) = some (hl.flatten ++ term).length := by
  intro hl
  induction hl with
  | nil =>
    intro term z hhl hti htl
    have htne : term ≠ [] := by
      intro hc
      rw [hc] at hti
      cases hti
    have htlen : 1 ≤ term.length := by
      cases term with
      | nil => exact absurd rfl htne
      | cons c cs => simp
    simp only [List.flatten_nil, List.nil_append]
    have hidx : idxNL (term ++ z) = some (term.length - 1) := idxNL_append_left z hti
    rw [indexBlankLine_some hidx]
    rw [if_pos (by omega)]
    congr 1
    omega
  | cons l ls ih =>
    intro term z hhl hti htl
    obtain ⟨hli, hl4⟩ := hhl l (List.mem_cons_self _ _)
    simp only [List.flatten_cons]
    rw [List.append_assoc]
    have hidx : idxNL (l ++ (ls.flatten ++ (term ++ z))) = some (l.length - 1) :=
      idxNL_append_left _ hli
    rw [indexBlankLine_some hidx]
    rw [if_neg (by omega)]
    rw [show l.length - 1 + 1 = l.length by omega]
    rw [List.drop_left]
    rw [ih term z (fun x hx => hhl x (List.mem_cons_of_mem _ hx)) hti htl]
    simp only [Option.map_some']
    congr 1
    simp only [List.length_append]
    omega

def cdata : List Byte :=
  S "WARC/1.0\nab\nWARC-Type: warcinfo\nWARC-Date: 2015-07-08T21:55:13Z\nWARC-Record-ID: <urn:uuid:x>\nContent-Length: 5\n\nhello"

set_option maxRecDepth 8000 in
/-- C1 counterexample: a record whose header block contains the 3-raw-byte
line `ab\n` (2 content bytes).  The streaming `storeLines` terminator
rule (raw line length < 3) scans past it, while the slicer
`indexBlankLine` rule (content length < 3) stops at it, so the two
modes return different outcomes for the very same container bytes:
streaming `Next` succeeds while slicer `Next` fails with the date parse
error (its truncated header block has no `WARC-Date`). -/
theorem next_mode_divergence :
    (wNext cdata ⟨WARCHeader.empty, Rdr.init false, none⟩).1 = Except.ok () ∧
    (wNext cdata ⟨WARCHeader.empty, Rdr.init true, none⟩).1 =
      Except.error Err.dateFormat := by
  constructor <;> rfl

/-- `ReadBytes('\n')` when a newline is in view. -/
theorem readBytesNL_some (data : List Byte) (pos : Nat) {i : Nat}
    (h : idxNL (data.drop pos) = some i) :
    readBytesNL data pos = ((data.drop pos).take (i + 1), pos + i + 1, false) := by
  unfold readBytesNL
  rw [h]

/-- `ReadBytes('\n')` at end of stream. -/
theorem readBytesNL_noNL (data : List Byte) (pos : Nat)
    (h : idxNL (data.drop pos) = none) :
    readBytesNL data pos = (data.drop pos, data.length, true) := by
  unfold readBytesNL
  rw [h]

/-- Streaming `readLine` at a position where a full line starts. -/
theorem readerReadLine_stream_at (data : List Byte) (r : Rdr) (l z : List Byte)
    (hsl : r.slicer = false)
    (hP : data.drop r.pos = l ++ z)
    (hli : idxNL l = some (l.length - 1)) :
    readerReadLine data r = ((l, none), { r with pos := r.pos + l.length }) := by
  have hlne : l ≠ [] := by
    intro hc
    rw [hc] at hli
    cases hli
  have hl1 : 1 ≤ l.length := by
    cases l with
    | nil => exact absurd rfl hlne
    | cons c cs => simp
  have hi : idxNL (data.drop r.pos) = some (l.length - 1) := by
    rw [hP]
    exact idxNL_append_left z hli
  have hrb := readBytesNL_some data r.pos hi
  rw [hP] at hrb
  rw [show l.length - 1 + 1 = l.length by omega] at hrb
  rw [List.take_left] at hrb
  rw [show r.pos + (l.length - 1) + 1 = r.pos + l.length by omega] at hrb
  unfold readerReadLine
  rw [hsl, hrb]
  rfl

/-- Streaming `readLine` when no newline remains. -/
theorem readerReadLine_stream_end (data : List Byte) (r : Rdr)
    (hsl : r.slicer = false)
    (hP : idxNL (data.drop r.pos) = none) :
    readerReadLine data r =
      ((data.drop r.pos, some Err.eof), { r with pos := data.length }) := by
  have hrb := readBytesNL_noNL data r.pos hP
  unfold readerReadLine
  rw [hsl, hrb]
  rfl

/-- Slicer `readLine` at an offset where a full line starts. -/
theorem readerReadLine_sl_at (data : List Byte) (r : Rdr) (c : Nat) (l z : List Byte)
    (hsl : r.slicer = true)
    (hix : r.idx = (c : Int))
    (hP : data.drop c = l ++ z)
    (hli : idxNL l = some (l.length - 1)) :
    readerReadLine data r = ((l, none), { r with idx := ((c + l.length : Nat) : Int) }) := by
  have hlne : l ≠ [] := by
    intro hc
    rw [hc] at hli
    cases hli
  have hl1 : 1 ≤ l.length := by
    cases l with
    | nil => exact absurd rfl hlne
    | cons c cs => simp
  have hi : idxNL (data.drop ((c : Int)).toNat) = some (l.length - 1) := by
    rw [show ((c : Int)).toNat = c by omega]
    rw [hP]
    exact idxNL_append_left z hli
  have hr := @readLineSl_some data (c : Int) (l.length - 1) (by omega) hi
  rw [show ((c : Int)).toNat = c by omega] at hr
  rw [hP] at hr
  rw [show l.length - 1 + 1 = l.length by omega] at hr
  rw [List.take_left] at hr
  rw [show (c : Int) + ((l.length - 1 : Nat) : Int) + 1 = ((c + l.length : Nat) : Int)
    by omega] at hr
  unfold readerReadLine
  rw [hsl, hix, hr]
  rfl

/-- Slicer `readLine` when no newline remains. -/
theorem readerReadLine_sl_end (data : List Byte) (r : Rdr) (c : Nat)
    (hsl : r.slicer = true)
    (hix : r.idx = (c : Int))
    (hP : idxNL (data.drop c) = none) :
    readerReadLine data r = (([], some Err.eof), r) := by
  have hr : readLineSl data (c : Int) = none := by
    refine readLineSl_none (Or.inr ?_)
    rw [show ((c : Int)).toNat = c by omega]
    exact hP
  unfold readerReadLine
  rw [hsl, hix, hr]
  rfl

/-- One-step unfolding of `skipBlankLoop` when the line read errs. -/
theorem skipBlankLoop_succ_err (data : List Byte) (fuel : Nat) (r : Rdr)
    {slc : List Byte} {e : Err} {r' : Rdr}
    (h : readerReadLine data r = ((slc, some e), r')) :
    skipBlankLoop data (fuel + 1) r = ((slc, some e), r') := by
  have hstep : skipBlankLoop data (fuel + 1) r =
      (match readerReadLine data r with
       | ((slc, er), r') =>
         match er with
         | some e => ((slc, some e), r')
         | none =>
           if (trimSpaceBytes slc).length = 0 then skipBlankLoop data fuel r'
           else ((slc, none), r')) := rfl
  rw [hstep, h]

/-- One-step unfolding of `skipBlankLoop` when a line is read cleanly. -/
theorem skipBlankLoop_succ_ok (data : List Byte) (fuel : Nat) (r : Rdr)
    {slc : List Byte} {r' : Rdr}
    (h : readerReadLine data r = ((slc, none), r')) :
    skipBlankLoop data (fuel + 1) r =
      (if (trimSpaceBytes slc).length = 0 then skipBlankLoop data fuel r'
       else ((slc, none), r')) := by
  have hstep : skipBlankLoop data (fuel + 1) r =
      (match readerReadLine data r with
       | ((slc, er), r') =>
         match er with
         | some e => ((slc, some e), r')
         | none =>
           if (trimSpaceBytes slc).length = 0 then skipBlankLoop data fuel r'
           else ((slc, none), r')) := rfl
  rw [hstep, h]

/-- The blank-skipping loop of `next` on a streaming source: skip the
separator lines and return the version line. -/
theorem skipBlank_stream (data : List Byte) : ∀ (bls : List (List Byte)) (fuel : Nat)
    (r : Rdr) (magic rest2 : List Byte),
    r.slicer = false →
    data.drop r.pos = bls.flatten ++ (magic ++ rest2) →
    (∀ l ∈ bls, idxNL l = some (l.length - 1) ∧ trimSpaceBytes l = []) →
    idxNL magic = some (magic.length - 1) →
    trimSpaceBytes magic ≠ [] →
    bls.length + 1 ≤ fuel →
    skipBlankLoop data fuel r =
      ((magic, none), { r with pos := r.pos + bls.flatten.length + magic.length }) := by
  intro bls
  induction bls with
  | nil =>
    intro fuel r magic rest2 hsl hP hbl hmi hmne hf
    cases fuel with
    | zero => omega
    | succ f =>
      simp only [List.flatten_nil, List.nil_append] at hP
      have hrl := readerReadLine_stream_at data r magic rest2 hsl hP hmi
      rw [skipBlankLoop_succ_ok data f r hrl]
      rw [if_neg (fun hc => hmne (List.length_eq_zero.mp hc))]
      rfl
  | cons l ls ih =>
    intro fuel r magic rest2 hsl hP hbl hmi hmne hf
    obtain ⟨hli, hlb⟩ := hbl l (List.mem_cons_self _ _)
    cases fuel with
    | zero => simp at hf
    | succ f =>
      simp only [List.flatten_cons] at hP
      rw [List.append_assoc] at hP
      have hrl := readerReadLine_stream_at data r l (ls.flatten ++ (magic ++ rest2)) hsl hP hli
      rw [skipBlankLoop_succ_ok data f r hrl]
      rw [if_pos (by rw [hlb]; rfl)]
      have hP2 : data.drop (r.pos + l.length) = ls.flatten ++ (magic ++ rest2) := by
        have hdd : data.drop (r.pos + l.length) = (data.drop r.pos).drop l.length := by
          rw [List.drop_drop]
        rw [hdd, hP, List.drop_left]
      have hih := ih f { r with pos := r.pos + l.length } magic rest2 hsl hP2
        (fun x hx => hbl x (List.mem_cons_of_mem _ hx)) hmi hmne
        (by simp only [List.length_cons] at hf; omega)
      rw [hih]
      have hp : r.pos + l.length + ls.flatten.length + magic.length =
          r.pos + (l :: ls).flatten.length + magic.length := by
        simp only [List.flatten_cons, List.length_append]
        omega
      rw [hp]

/-- The blank-skipping loop of `next` on a slicer source. -/
theorem skipBlank_sl (data : List Byte) : ∀ (bls : List (List Byte)) (fuel : Nat)
    (r : Rdr) (c : Nat) (magic rest2 : List Byte),
    r.slicer = true →
    r.idx = (c : Int) →
    data.drop c = bls.flatten ++ (magic ++ rest2) →
    (∀ l ∈ bls, idxNL l = some (l.length - 1) ∧ trimSpaceBytes l = []) →
    idxNL magic = some (magic.length - 1) →
    trimSpaceBytes magic ≠ [] →
    bls.length + 1 ≤ fuel →
    skipBlankLoop data fuel r =
      ((magic, none), { r with idx := ((c + bls.flatten.length + magic.length : Nat) : Int) }) := by
  intro bls
  induction bls with
  | nil =>
    intro fuel r c magic rest2 hsl hix hP hbl hmi hmne hf
    cases fuel with
    | zero => omega
    | succ f =>
      simp only [List.flatten_nil, List.nil_append] at hP
      have hrl := readerReadLine_sl_at data r c magic rest2 hsl hix hP hmi
      rw [skipBlankLoop_succ_ok data f r hrl]
      rw [if_neg (fun hc => hmne (List.length_eq_zero.mp hc))]
      have hp : ((c + magic.length : Nat) : Int) =
          ((c + List.length (List.flatten ([] : List (List Byte))) + magic.length : Nat) : Int) := by
        simp
      rw [hp]
  | cons l ls ih =>
    intro fuel r c magic rest2 hsl hix hP hbl hmi hmne hf
    obtain ⟨hli, hlb⟩ := hbl l (List.mem_cons_self _ _)
    cases fuel with
    | zero => simp at hf
    | succ f =>
      simp only [List.flatten_cons] at hP
      rw [List.append_assoc] at hP
      have hrl := readerReadLine_sl_at data r c l (ls.flatten ++ (magic ++ rest2)) hsl hix hP hli
      rw [skipBlankLoop_succ_ok data f r hrl]
      rw [if_pos (by rw [hlb]; rfl)]
      have hP2 : data.drop (c + l.length) = ls.flatten ++ (magic ++ rest2) := by
        have hdd : data.drop (c + l.length) = (data.drop c).drop l.length := by
          rw [List.drop_drop]
        rw [hdd, hP, List.drop_left]
      have hih := ih f { r with idx := ((c + l.length : Nat) : Int) } (c + l.length) magic rest2
        hsl rfl hP2
        (fun x hx => hbl x (List.mem_cons_of_mem _ hx)) hmi hmne
        (by simp only [List.length_cons] at hf; omega)
      rw [hih]
      have hp : ((c + l.length + ls.flatten.length + magic.length : Nat) : Int) =
          ((c + (l :: ls).flatten.length + magic.length : Nat) : Int) := by
        simp only [List.flatten_cons, List.length_append]
        omega
      rw [hp]

/-- Streaming `storeLines` over a well-formed header block consumes
exactly the header lines and the terminator. -/
theorem storeLines_stream_wf (data : List Byte) (r : Rdr)
    (hl : List (List Byte)) (term z : List Byte)
    (hsl : r.slicer = false)
    (hP : data.drop r.pos = hl.flatten ++ (term ++ z))
    (hhl : ∀ l ∈ hl, idxNL l = some (l.length - 1) ∧ 4 ≤ l.length)
    (hti : idxNL term = some (term.length - 1))
    (htl : term.length ≤ 2) :
    readerStoreLines data r [] false =
      ((hl.flatten ++ term, none),
       { r with pos := r.pos + (hl.flatten ++ term).length }) := by
  have htne : term ≠ [] := by
    intro hc
    rw [hc] at hti
    cases hti
  have htlen : 1 ≤ term.length := by
    cases term with
    | nil => exact absurd rfl htne
    | cons c cs => simp
  have hlnn : ∀ l ∈ hl, l ≠ [] := by
    intro l hml hc
    have := (hhl l hml).2
    rw [hc] at this
    simp at this
  have hfuel : hl.length + 1 ≤ data.length + 1 := by
    have h1 : hl.length ≤ hl.flatten.length := flatten_len_ge hlnn
    have h2 := congrArg List.length hP
    simp only [List.length_drop, List.length_append] at h2
    omega
  have hB := stStLoop_lines data hl (data.length + 1) r.pos [] term z hP
    (fun l hml => ⟨by have := (hhl l hml).2; omega, (hhl l hml).1⟩) (by omega) hti hfuel
  have hstep : readerStoreLines data r [] false =
      (match stStLoop data (data.length + 1) r.pos [] with
       | (cons, pos', er) =>
         if er = true then (([] ++ cons, some Err.eof), { r with pos := pos' })
         else (([] ++ cons, none),
               { r with pos := pos',
                        sz := if false = true then r.sz - (cons.length : Int) else r.sz })) := by
    unfold readerStoreLines
    rw [hsl]
    rfl
  rw [hstep, hB]
  rfl

/-- Slicer `storeLines` over a well-formed header block consumes exactly
the header lines and the terminator, returning the same block. -/
theorem storeLines_sl_wf (data : List Byte) (r : Rdr) (c : Nat)
    (hl : List (List Byte)) (term z : List Byte)
    (hsl : r.slicer = true)
    (hix : r.idx = (c : Int))
    (hP : data.drop c = hl.flatten ++ (term ++ z))
    (hhl : ∀ l ∈ hl, idxNL l = some (l.length - 1) ∧ 4 ≤ l.length)
    (hti : idxNL term = some (term.length - 1))
    (htl : term.length ≤ 2) :
    readerStoreLines data r [] false =
      ((hl.flatten ++ term, none),
       { r with idx := ((c + (hl.flatten ++ term).length : Nat) : Int) }) := by
  have htne : term ≠ [] := by
    intro hc
    rw [hc] at hti
    cases hti
  have htlen : 1 ≤ term.length := by
    cases term with
    | nil => exact absurd rfl htne
    | cons c cs => simp
  have hibl : indexBlankLine (data.drop ((c : Int)).toNat) =
      some (hl.flatten ++ term).length := by
    rw [show ((c : Int)).toNat = c by omega, hP]
    exact indexBlankLine_lines hl term z hhl hti htl
  have hscan : storeScanSl data (c : Int) = some (hl.flatten ++ term).length :=
    storeScanSl_some (by omega) hibl
  have hclen : c + ((hl.flatten ++ term).length + z.length) ≤ data.length := by
    have h2 := congrArg List.length hP
    simp only [List.length_drop, List.length_append] at h2
    have hc : c ≤ data.length := by
      by_contra hcc
      have hd : data.drop c = [] := List.drop_eq_nil_of_le (by omega)
      rw [hd] at hP
      have := congrArg List.length hP
      simp only [List.length_nil, List.length_append] at this
      omega
    simp only [List.length_append]
    omega
  have hstep : readerStoreLines data r [] false =
      (match slicerSlice data (r.idx - ((List.length ([] : List Byte) : Nat) : Int))
          ((r.idx + (((hl.flatten ++ term).length : Nat) : Int) -
            (r.idx - ((List.length ([] : List Byte) : Nat) : Int))).toNat) with
       | (slc, er) =>
         ((slc, if er = true then some Err.eof else none),
          { r with idx := r.idx + (((hl.flatten ++ term).length : Nat) : Int),
                   sz := if false = true then
                           r.sz - (((hl.flatten ++ term).length : Nat) : Int)
                         else r.sz })) := by
    unfold readerStoreLines
    rw [hsl, hix, hscan]
    rfl
  rw [hstep, hix]
  have hoff : (c : Int) - ((List.length ([] : List Byte) : Nat) : Int) = (c : Int) := by
    simp
  rw [hoff]
  have harg : ((c : Int) + (((hl.flatten ++ term).length : Nat) : Int) - (c : Int)).toNat =
      (hl.flatten ++ term).length := by
    omega
  rw [harg]
  have hslice : slicerSlice data (c : Int) ((hl.flatten ++ term).length) =
      (hl.flatten ++ term, false) := by
    unfold slicerSlice
    rw [if_neg (by omega)]
    rw [show ((c : Int)).toNat = c by omega]
    rw [hP]
    rw [← List.append_assoc]
    rw [List.take_left]
    have : (decide (c + (hl.flatten ++ term).length > data.length)) = false := by
      simp only [decide_eq_false_iff_not, not_lt]
      omega
    rw [this]
  rw [hslice]
  have hidx2 : (c : Int) + (((hl.flatten ++ term).length : Nat) : Int) =
      ((c + (hl.flatten ++ term).length : Nat) : Int) := by
    omega
  rw [hidx2]
  rfl

/-- `reader.next` does not discard when the previous record was fully
read. -/
theorem readerNext_no_discard (data : List Byte) (r : Rdr) (h : r.thisIdx = r.sz) :
    readerNext data r =
      skipBlankLoop data (data.length + 1) { r with idx := r.idx + r.sz } := by
  have hcond : ¬ (({ r with idx := r.idx + r.sz } : Rdr).thisIdx <
      ({ r with idx := r.idx + r.sz } : Rdr).sz ∧
      ({ r with idx := r.idx + r.sz } : Rdr).slicer = false) := by
    dsimp only
    intro hc
    exact absurd hc.1 (by omega)
  simp only [readerNext]
  rw [if_neg hcond]

/-- The header a successful `WARCReader.Next` leaves behind, given the
stored field block `B`, the parsed date and the parsed size. -/
def foldHdr (h : WARCHeader) (B : List Byte) (d : Option GoDate) (szv : Int) : WARCHeader :=
  { h with fields := B,
           rtype := asString (getSelectValue B "WARC-Type"),
           url := asString (getSelectValue B "WARC-Target-URI"),
           ID := asString (getSelectValue B "WARC-Record-ID"),
           date := d,
           size := szv,
           segment := 0 }

/-- `WARCReader.Next` on a streaming source positioned at a well-formed
record. -/
theorem wNext_stream_wf (data : List Byte) (w : WST) (rec : WRec) (rest : List Byte)
    (hsl : w.rdr.slicer = false)
    (hP : data.drop w.rdr.pos = rec.bytes ++ rest)
    (hwf : rec.wf)
    (hdrained : w.rdr.thisIdx = w.rdr.sz) :
    wNext data w =
      (Except.ok (),
       { w with
           hdr := foldHdr w.hdr (rec.hl.flatten ++ rec.term)
             (parseRFC3339 (getSelectValue (rec.hl.flatten ++ rec.term) "WARC-Date"))
             ((rec.content.length : Nat) : Int),
           rdr := { w.rdr with
                      idx := w.rdr.idx + w.rdr.sz,
                      pos := w.rdr.pos + rec.blanks.flatten.length + rec.magic.length +
                             (rec.hl.flatten ++ rec.term).length,
                      thisIdx := 0,
                      sz := ((rec.content.length : Nat) : Int) } }) := by
  obtain ⟨hbl, hmi, hmne, hhl, hti, htl, hdate, hlen, hseg⟩ := hwf
  simp only [WRec.bytes] at hP
  simp only [List.append_assoc] at hP
  have hblne : ∀ l ∈ rec.blanks, l ≠ [] := by
    intro l hml hc
    have := (hbl l hml).1
    rw [hc] at this
    cases this
  have hfuel : rec.blanks.length + 1 ≤ data.length + 1 := by
    have h1 : rec.blanks.length ≤ rec.blanks.flatten.length := flatten_len_ge hblne
    have h2 := congrArg List.length hP
    simp only [List.length_drop, List.length_append] at h2
    omega
  have hskip := skipBlank_stream data rec.blanks (data.length + 1)
    { w.rdr with idx := w.rdr.idx + w.rdr.sz } rec.magic
    (rec.hl.flatten ++ (rec.term ++ (rec.content ++ rest)))
    hsl hP hbl hmi hmne hfuel
  have hnx : readerNext data w.rdr =
      ((rec.magic, none),
       { w.rdr with idx := w.rdr.idx + w.rdr.sz,
                    pos := w.rdr.pos + rec.blanks.flatten.length + rec.magic.length }) := by
    rw [readerNext_no_discard data w.rdr hdrained, hskip]
  have hP2 : data.drop (w.rdr.pos + rec.blanks.flatten.length + rec.magic.length) =
      rec.hl.flatten ++ (rec.term ++ (rec.content ++ rest)) := by
    rw [Nat.add_assoc]
    rw [show rec.blanks.flatten.length + rec.magic.length =
      (rec.blanks.flatten ++ rec.magic).length by simp [List.length_append]]
    rw [← List.drop_drop]
    rw [hP]
    rw [show rec.blanks.flatten ++ (rec.magic ++ (rec.hl.flatten ++ (rec.term ++ (rec.content ++ rest)))) =
      (rec.blanks.flatten ++ rec.magic) ++ (rec.hl.flatten ++ (rec.term ++ (rec.content ++ rest)))
      by simp [List.append_assoc]]
    exact List.drop_left _ _
  have hSL := storeLines_stream_wf data
    { w.rdr with idx := w.rdr.idx + w.rdr.sz,
                 pos := w.rdr.pos + rec.blanks.flatten.length + rec.magic.length }
    rec.hl rec.term (rec.content ++ rest) hsl hP2 hhl hti (by omega)
  obtain ⟨d, hd⟩ : ∃ d, parseRFC3339 (getSelectValue (rec.hl.flatten ++ rec.term) "WARC-Date") =
      some d := by
    cases hq : parseRFC3339 (getSelectValue (rec.hl.flatten ++ rec.term) "WARC-Date") with
    | none => rw [hq] at hdate; cases hdate
    | some d => exact ⟨d, rfl⟩
  simp only [wNext]
  rw [hnx]
  rw [show (((rec.magic, none),
      { w.rdr with idx := w.rdr.idx + w.rdr.sz,
                   pos := w.rdr.pos + rec.blanks.flatten.length + rec.magic.length }) :
      (List Byte × Option Err) × Rdr).2 =
      { w.rdr with idx := w.rdr.idx + w.rdr.sz,
                   pos := w.rdr.pos + rec.blanks.flatten.length + rec.magic.length } from rfl]
  rw [hSL]
  dsimp only
  rw [hd, hlen, hseg]
  simp only [foldHdr]
  rfl

/-- `reader.next` on a slicer source never discards (it advances `idx`
instead). -/
theorem readerNext_sl (data : List Byte) (r : Rdr) (h : r.slicer = true) :
    readerNext data r =
      skipBlankLoop data (data.length + 1) { r with idx := r.idx + r.sz } := by
  have hcond : ¬ (({ r with idx := r.idx + r.sz } : Rdr).thisIdx <
      ({ r with idx := r.idx + r.sz } : Rdr).sz ∧
      ({ r with idx := r.idx + r.sz } : Rdr).slicer = false) := by
    dsimp only
    intro hc
    rw [h] at hc
    cases hc.2
  simp only [readerNext]
  rw [if_neg hcond]

/-- `WARCReader.Next` on a slicer source positioned at a well-formed
record. -/
theorem wNext_sl_wf (data : List Byte) (w : WST) (c : Nat) (rec : WRec) (rest : List Byte)
    (hsl : w.rdr.slicer = true)
    (hix : w.rdr.idx + w.rdr.sz = ((c : Nat) : Int))
    (hP : data.drop c = rec.bytes ++ rest)
    (hwf : rec.wf) :
    wNext data w =
      (Except.ok (),
       { w with
           hdr := foldHdr w.hdr (rec.hl.flatten ++ rec.term)
             (parseRFC3339 (getSelectValue (rec.hl.flatten ++ rec.term) "WARC-Date"))
             ((rec.content.length : Nat) : Int),
           rdr := { w.rdr with
                      idx := ((c + rec.blanks.flatten.length + rec.magic.length +
                              (rec.hl.flatten ++ rec.term).length : Nat) : Int),
                      thisIdx := 0,
                      sz := ((rec.content.length : Nat) : Int) } }) := by
  obtain ⟨hbl, hmi, hmne, hhl, hti, htl, hdate, hlen, hseg⟩ := hwf
  simp only [WRec.bytes] at hP
  simp only [List.append_assoc] at hP
  have hblne : ∀ l ∈ rec.blanks, l ≠ [] := by
    intro l hml hc
    have := (hbl l hml).1
    rw [hc] at this
    cases this
  have hfuel : rec.blanks.length + 1 ≤ data.length + 1 := by
    have h1 : rec.blanks.length ≤ rec.blanks.flatten.length := flatten_len_ge hblne
    have h2 := congrArg List.length hP
    simp only [List.length_drop, List.length_append] at h2
    omega
  have hskip := skipBlank_sl data rec.blanks (data.length + 1)
    { w.rdr with idx := w.rdr.idx + w.rdr.sz } c rec.magic
    (rec.hl.flatten ++ (rec.term ++ (rec.content ++ rest)))
    hsl hix hP hbl hmi hmne hfuel
  have hnx : readerNext data w.rdr =
      ((rec.magic, none),
       { w.rdr with
           idx := ((c + rec.blanks.flatten.length + rec.magic.length : Nat) : Int) }) := by
    rw [readerNext_sl data w.rdr hsl, hskip]
  have hP2 : data.drop (c + rec.blanks.flatten.length + rec.magic.length) =
      rec.hl.flatten ++ (rec.term ++ (rec.content ++ rest)) := by
    rw [Nat.add_assoc]
    rw [show rec.blanks.flatten.length + rec.magic.length =
      (rec.blanks.flatten ++ rec.magic).length by simp [List.length_append]]
    rw [← List.drop_drop]
    rw [hP]
    rw [show rec.blanks.flatten ++ (rec.magic ++ (rec.hl.flatten ++ (rec.term ++ (rec.content ++ rest)))) =
      (rec.blanks.flatten ++ rec.magic) ++ (rec.hl.flatten ++ (rec.term ++ (rec.content ++ rest)))
      by simp [List.append_assoc]]
    exact List.drop_left _ _
  have hSL := storeLines_sl_wf data
    { w.rdr with
        idx := ((c + rec.blanks.flatten.length + rec.magic.length : Nat) : Int) }
    (c + rec.blanks.flatten.length + rec.magic.length)
    rec.hl rec.term (rec.content ++ rest) hsl rfl hP2 hhl hti (by omega)
  obtain ⟨d, hd⟩ : ∃ d, parseRFC3339 (getSelectValue (rec.hl.flatten ++ rec.term) "WARC-Date") =
      some d := by
    cases hq : parseRFC3339 (getSelectValue (rec.hl.flatten ++ rec.term) "WARC-Date") with
    | none => rw [hq] at hdate; cases hdate
    | some d => exact ⟨d, rfl⟩
  simp only [wNext]
  rw [hnx]
  rw [show (((rec.magic, none),
      { w.rdr with
          idx := ((c + rec.blanks.flatten.length + rec.magic.length : Nat) : Int) }) :
      (List Byte × Option Err) × Rdr).2 =
      { w.rdr with
          idx := ((c + rec.blanks.flatten.length + rec.magic.length : Nat) : Int) } from rfl]
  rw [hSL]
  dsimp only
  rw [hd, hlen, hseg]
  simp only [foldHdr]
  rfl

/-- `ReadAll` of the current record on a streaming source: exactly the
declared content comes back and the cursor drains. -/
theorem readAllRecord_stream (data : List Byte) (r : Rdr) (content z : List Byte)
    (hsl : r.slicer = false) (hti : r.thisIdx = 0)
    (hsz : r.sz = ((content.length : Nat) : Int))
    (hP : data.drop r.pos = content ++ z) :
    readAllRecord data r =
      (content, { r with pos := r.pos + content.length,
                         thisIdx := ((content.length : Nat) : Int) }) := by
  by_cases hz : content.length = 0
  · have hcnil : content = [] := List.length_eq_zero.mp hz
    subst hcnil
    have hrr : readerRead data r ((r.sz - r.thisIdx).toNat) = (([], some Err.eof), r) := by
      unfold readerRead
      rw [if_pos (by omega)]
    simp only [readAllRecord]
    rw [hrr]
    simp only [List.length_nil, Nat.add_zero, Nat.cast_zero]
    rw [← hti]
  · have hzlen : data.length - r.pos ≥ content.length := by
      have h2 := congrArg List.length hP
      simp only [List.length_drop, List.length_append] at h2
      omega
    have h1 : (r.sz - r.thisIdx).toNat = content.length := by
      rw [hti, hsz]
      omega
    have hrr : readerRead data r ((r.sz - r.thisIdx).toNat) =
        ((content, none), { r with pos := r.pos + content.length,
                                   thisIdx := ((content.length : Nat) : Int) }) := by
      rw [h1]
      simp only [readerRead]
      rw [hti, hsz]
      rw [if_neg (show ¬ ((0 : Int) ≥ ((content.length : Nat) : Int)) by omega)]
      rw [if_neg (show ¬ (((content.length : Nat) : Int) >
        ((content.length : Nat) : Int) - 0) by omega)]
      rw [hsl]
      rw [show (((content.length : Nat) : Int)).toNat = content.length by omega]
      rw [show min content.length (data.length - r.pos) = content.length by omega]
      rw [if_neg (show ¬ (data.length - r.pos < content.length) by omega)]
      rw [hP, List.take_left]
      rw [show (0 : Int) + ((content.length : Nat) : Int) = ((content.length : Nat) : Int)
        by omega]
      rfl
    simp only [readAllRecord]
    rw [hrr]

/-- `ReadAll` of the current record on a slicer source. -/
theorem readAllRecord_sl (data : List Byte) (r : Rdr) (c : Nat) (content z : List Byte)
    (hsl : r.slicer = true) (hti : r.thisIdx = 0)
    (hsz : r.sz = ((content.length : Nat) : Int))
    (hix : r.idx = ((c : Nat) : Int))
    (hP : data.drop c = content ++ z) :
    readAllRecord data r =
      (content, { r with thisIdx := ((content.length : Nat) : Int) }) := by
  by_cases hz : content.length = 0
  · have hcnil : content = [] := List.length_eq_zero.mp hz
    subst hcnil
    have hrr : readerRead data r ((r.sz - r.thisIdx).toNat) = (([], some Err.eof), r) := by
      unfold readerRead
      rw [if_pos (by omega)]
    simp only [readAllRecord]
    rw [hrr]
    simp only [List.length_nil, Nat.cast_zero]
    rw [← hti]
  · have hclt : c < data.length := by
      by_contra hcc
      have hd : data.drop c = [] := List.drop_eq_nil_of_le (by omega)
      rw [hd] at hP
      have := congrArg List.length hP
      simp only [List.length_nil, List.length_append] at this
      omega
    have hzlen : c + content.length ≤ data.length := by
      have h2 := congrArg List.length hP
      simp only [List.length_drop, List.length_append] at h2
      omega
    have h1 : (r.sz - r.thisIdx).toNat = content.length := by
      rw [hti, hsz]
      omega
    have hrr : readerRead data r ((r.sz - r.thisIdx).toNat) =
        ((content, none), { r with thisIdx := ((content.length : Nat) : Int) }) := by
      rw [h1]
      simp only [readerRead]
      rw [hti, hsz, hix]
      rw [if_neg (show ¬ ((0 : Int) ≥ ((content.length : Nat) : Int)) by omega)]
      rw [if_neg (show ¬ (((content.length : Nat) : Int) >
        ((content.length : Nat) : Int) - 0) by omega)]
      rw [hsl]
      rw [if_neg (show ¬ (true = false) by simp)]
      rw [show ((c : Int) + ((0 : Int) + ((content.length : Nat) : Int)) -
        ((content.length : Nat) : Int)) = (c : Int) by omega]
      rw [show (((content.length : Nat) : Int)).toNat = content.length by omega]
      have hslice : slicerSlice data (c : Int) content.length = (content, false) := by
        unfold slicerSlice
        rw [if_neg (by omega)]
        rw [show ((c : Int)).toNat = c by omega]
        rw [hP, List.take_left]
        rw [show (decide (c + content.length > data.length)) = false by
          simp only [decide_eq_false_iff_not, not_lt]; omega]
      rw [hslice]
      rw [show ((0 : Int) + ((content.length : Nat) : Int)) =
        ((content.length : Nat) : Int) by omega]
      rfl
    simp only [readAllRecord]
    rw [hrr]

/-- `Next` at the end of a streaming container reports `io.EOF`. -/
theorem wNext_stream_end (data : List Byte) (w : WST)
    (hsl : w.rdr.slicer = false) (hpos : data.length ≤ w.rdr.pos)
    (hdrained : w.rdr.thisIdx = w.rdr.sz) :
    (wNext data w).1 = Except.error Err.eof := by
  have hnl : idxNL (data.drop w.rdr.pos) = none := by
    rw [List.drop_eq_nil_of_le hpos]
    rfl
  have hrl := readerReadLine_stream_end data
    { w.rdr with idx := w.rdr.idx + w.rdr.sz } hsl hnl
  have hnx : (readerNext data w.rdr).1.2 = some Err.eof := by
    rw [readerNext_no_discard data w.rdr hdrained,
        skipBlankLoop_succ_err data data.length _ hrl]
  simp only [wNext]
  rw [hnx]

/-- `Next` at the end of a slicer container reports `io.EOF`. -/
theorem wNext_sl_end (data : List Byte) (w : WST) (c : Nat)
    (hsl : w.rdr.slicer = true)
    (hix : w.rdr.idx + w.rdr.sz = ((c : Nat) : Int))
    (hc : data.length ≤ c) :
    (wNext data w).1 = Except.error Err.eof := by
  have hnl : idxNL (data.drop c) = none := by
    rw [List.drop_eq_nil_of_le hc]
    rfl
  have hrl := readerReadLine_sl_end data
    { w.rdr with idx := w.rdr.idx + w.rdr.sz } c hsl hix hnl
  have hnx : (readerNext data w.rdr).1.2 = some Err.eof := by
    rw [readerNext_sl data w.rdr hsl,
        skipBlankLoop_succ_err data data.length _ hrl]
  simp only [wNext]
  rw [hnx]

/-- One-step unfolding of `runNext` on a failing `Next`. -/
theorem runNext_succ_err (data : List Byte) (n : Nat) (w : WST)
    {er : Err} {w1 : WST} (h : wNext data w = (Except.error er, w1)) :
    runNext data (n + 1) w = ([], some er) := by
  have hstep : runNext data (n + 1) w =
      (match wNext data w with
       | (Except.error er, _) => ([], some er)
       | (Except.ok _, w1) =>
         ((pairsOf w1.hdr.fields, (readAllRecord data w1.rdr).1) ::
            (runNext data n { w1 with rdr := (readAllRecord data w1.rdr).2 }).1,
          (runNext data n { w1 with rdr := (readAllRecord data w1.rdr).2 }).2)) := rfl
  rw [hstep, h]

/-- One-step unfolding of `runNext` on a successful `Next`. -/
theorem runNext_succ_ok (data : List Byte) (n : Nat) (w : WST)
    {u : Unit} {w1 : WST} (h : wNext data w = (Except.ok u, w1)) :
    runNext data (n + 1) w =
      ((pairsOf w1.hdr.fields, (readAllRecord data w1.rdr).1) ::
         (runNext data n { w1 with rdr := (readAllRecord data w1.rdr).2 }).1,
       (runNext data n { w1 with rdr := (readAllRecord data w1.rdr).2 }).2) := by
  have hstep : runNext data (n + 1) w =
      (match wNext data w with
       | (Except.error er, _) => ([], some er)
       | (Except.ok _, w1) =>
         ((pairsOf w1.hdr.fields, (readAllRecord data w1.rdr).1) ::
            (runNext data n { w1 with rdr := (readAllRecord data w1.rdr).2 }).1,
          (runNext data n { w1 with rdr := (readAllRecord data w1.rdr).2 }).2)) := rfl
  rw [hstep, h]

/-- Lockstep agreement of the `Next` loop across the two source modes,
for a container that is a flattening of well-formed records, from
corresponding cursor states. -/
theorem runNext_agree (data : List Byte) : ∀ (n : Nat) (recs : List WRec) (c : Nat)
    (ws wl : WST),
    (∀ rec ∈ recs, rec.wf) →
    data.drop c = (recs.map WRec.bytes).flatten →
    ws.rdr.slicer = false → ws.rdr.pos = c → ws.rdr.thisIdx = ws.rdr.sz →
    wl.rdr.slicer = true → wl.rdr.idx + wl.rdr.sz = ((c : Nat) : Int) →
    runNext data n ws = runNext data n wl := by
  intro n
  induction n with
  | zero =>
    intro recs c ws wl _ _ _ _ _ _ _
    rfl
  | succ m ih =>
    intro recs c ws wl hwf hdec hs1 hs2 hs3 hl1 hl2
    cases recs with
    | nil =>
      have hcend : data.length ≤ c := by
        have hlen := congrArg List.length hdec
        simp only [List.length_drop, List.map_nil, List.flatten_nil, List.length_nil] at hlen
        omega
      have he1 : (wNext data ws).1 = Except.error Err.eof :=
        wNext_stream_end data ws hs1 (by omega) hs3
      have he2 : (wNext data wl).1 = Except.error Err.eof :=
        wNext_sl_end data wl c hl1 hl2 hcend
      rcases hq1 : wNext data ws with ⟨e1, ws1⟩
      rcases hq2 : wNext data wl with ⟨e2, wl1⟩
      rw [hq1] at he1
      rw [hq2] at he2
      simp only at he1 he2
      subst he1
      subst he2
      rw [runNext_succ_err data m ws hq1, runNext_succ_err data m wl hq2]
    | cons rec rs =>
      have hdec1 : data.drop c = rec.bytes ++ (rs.map WRec.bytes).flatten := by
        rw [hdec]
        simp only [List.map_cons, List.flatten_cons]
      have hwf1 : rec.wf := hwf rec (List.mem_cons_self _ _)
      have hws := wNext_stream_wf data ws rec ((rs.map WRec.bytes).flatten) hs1
        (by rw [hs2]; exact hdec1) hwf1 hs3
      have hwl := wNext_sl_wf data wl c rec ((rs.map WRec.bytes).flatten) hl1 hl2
        hdec1 hwf1
      have hlenrec : rec.bytes.length = rec.blanks.flatten.length + rec.magic.length +
          (rec.hl.flatten ++ rec.term).length + rec.content.length := by
        simp only [WRec.bytes, List.length_append]
        omega
      have hPc : data.drop (c + rec.blanks.flatten.length + rec.magic.length +
          (rec.hl.flatten ++ rec.term).length) =
          rec.content ++ (rs.map WRec.bytes).flatten := by
        have hb : rec.bytes =
            (rec.blanks.flatten ++ (rec.magic ++ (rec.hl.flatten ++ rec.term))) ++
              rec.content := by
          simp [WRec.bytes, List.append_assoc]
        rw [show c + rec.blanks.flatten.length + rec.magic.length +
            (rec.hl.flatten ++ rec.term).length =
            c + (rec.blanks.flatten ++ (rec.magic ++ (rec.hl.flatten ++ rec.term))).length by
          simp only [List.length_append]
          omega]
        rw [← List.drop_drop, hdec1, hb, List.append_assoc]
        exact List.drop_left _ _
      have hPs : data.drop (ws.rdr.pos + rec.blanks.flatten.length + rec.magic.length +
          (rec.hl.flatten ++ rec.term).length) =
          rec.content ++ (rs.map WRec.bytes).flatten := by
        rw [hs2]
        exact hPc
      have hra_s := readAllRecord_stream data
        { ws.rdr with
            idx := ws.rdr.idx + ws.rdr.sz,
            pos := ws.rdr.pos + rec.blanks.flatten.length + rec.magic.length +
                   (rec.hl.flatten ++ rec.term).length,
            thisIdx := 0,
            sz := ((rec.content.length : Nat) : Int) }
        rec.content ((rs.map WRec.bytes).flatten) hs1 rfl rfl hPs
      have hra_l := readAllRecord_sl data
        { wl.rdr with
            idx := ((c + rec.blanks.flatten.length + rec.magic.length +
                    (rec.hl.flatten ++ rec.term).length : Nat) : Int),
            thisIdx := 0,
            sz := ((rec.content.length : Nat) : Int) }
        (c + rec.blanks.flatten.length + rec.magic.length +
         (rec.hl.flatten ++ rec.term).length)
        rec.content ((rs.map WRec.bytes).flatten) hl1 rfl rfl rfl hPc
      rw [runNext_succ_ok data m ws hws, runNext_succ_ok data m wl hwl]
      dsimp only
      rw [hra_s, hra_l]
      dsimp only
      have hdec2 : data.drop (c + rec.bytes.length) = (rs.map WRec.bytes).flatten := by
        rw [show c + rec.bytes.length =
            (c + rec.blanks.flatten.length + rec.magic.length +
             (rec.hl.flatten ++ rec.term).length) + rec.content.length by omega]
        rw [← List.drop_drop, hPc]
        exact List.drop_left _ _
      have hih := ih rs (c + rec.bytes.length)
        { ws with
            hdr := foldHdr ws.hdr (rec.hl.flatten ++ rec.term)
              (parseRFC3339 (getSelectValue (rec.hl.flatten ++ rec.term) "WARC-Date"))
              ((rec.content.length : Nat) : Int),
            rdr := { ws.rdr with
                       idx := ws.rdr.idx + ws.rdr.sz,
                       pos := ws.rdr.pos + rec.blanks.flatten.length + rec.magic.length +
                              (rec.hl.flatten ++ rec.term).length + rec.content.length,
                       thisIdx := ((rec.content.length : Nat) : Int),
                       sz := ((rec.content.length : Nat) : Int) } }
        { wl with
            hdr := foldHdr wl.hdr (rec.hl.flatten ++ rec.term)
              (parseRFC3339 (getSelectValue (rec.hl.flatten ++ rec.term) "WARC-Date"))
              ((rec.content.length : Nat) : Int),
            rdr := { wl.rdr with
                       idx := ((c + rec.blanks.flatten.length + rec.magic.length +
                               (rec.hl.flatten ++ rec.term).length : Nat) : Int),
                       thisIdx := ((rec.content.length : Nat) : Int),
                       sz := ((rec.content.length : Nat) : Int) } }
        (fun x hx => hwf x (List.mem_cons_of_mem _ hx)) hdec2
        hs1 (by dsimp only; rw [hs2]; omega) rfl hl1
        (by dsimp only; simp only [hlenrec]; omega)
      rw [hih]
      rfl

instance (w : WRec) : Decidable w.wf := by
  unfold WRec.wf
  infer_instance

/-- C1 (amended): over a container that is a sequence of well-formed
records — every line newline-terminated, header lines at least 4 raw
bytes (at least 3 content bytes), terminators at most 2 raw bytes (at
most 1 content byte), dates and declared sizes parsing correctly — a
`Next` loop that reads each record's field map and drains its content
by bounded `Read` produces exactly the same outcomes (same records,
byte-identical content, identical field maps, and the same final
error) whether the underlying source is Streaming or Addressable.  The
raw-length window `[3, 4)`, where the two modes' blank-line rules
disagree, is excluded; the counterexample shows the disagreement there
is real. -/
theorem next_mode_equivalence (data : List Byte) (recs : List WRec) (n : Nat)
    (hwf : ∀ rec ∈ recs, rec.wf)
    (hdata : data = (recs.map WRec.bytes).flatten) :
    runNext data n ⟨WARCHeader.empty, Rdr.init false, none⟩ =
    runNext data n ⟨WARCHeader.empty, Rdr.init true, none⟩ :=
  runNext_agree data n recs 0 ⟨WARCHeader.empty, Rdr.init false, none⟩
    ⟨WARCHeader.empty, Rdr.init true, none⟩ hwf
    (by rw [List.drop_zero]; exact hdata) rfl rfl rfl rfl (by decide)

def c1rec1 : WRec :=
  { blanks := [],
    magic := S "WARC/1.0\n",
    hl := [S "WARC-Type: warcinfo\n", S "WARC-Date: 2015-07-08T21:55:13Z\n",
           S "WARC-Record-ID: <urn:uuid:1>\n", S "Content-Length: 5\n"],
    term := S "\n",
    content := S "hello" }

def c1rec2 : WRec :=
  { blanks := [S "\n", S "\n"],
    magic := S "WARC/1.0\n",
    hl := [S "WARC-Type: response\n", S "WARC-Date: 2016-01-02T03:04:05Z\n",
           S "WARC-Record-ID: <urn:uuid:2>\n", S "Content-Length: 2\n"],
    term := S "\n",
    content := S "hi" }

def c1data : List Byte := (([c1rec1, c1rec2]).map WRec.bytes).flatten

set_option maxRecDepth 8000 in
theorem next_mode_equivalence_witness :
    runNext c1data 3 ⟨WARCHeader.empty, Rdr.init false, none⟩ =
    runNext c1data 3 ⟨WARCHeader.empty, Rdr.init true, none⟩ :=
  next_mode_equivalence c1data [c1rec1, c1rec2] 3 (by decide) rfl

/-- `storeLines(i, alter)` on a slicer (addressable) source positioned at
a well-formed header block re-slices from `r.idx - i`, so when the `i`
stored field bytes are exactly the bytes preceding the payload the
returned block is the fields followed by the header lines and the
terminator; with `alter` set, `sz` shrinks by the bytes consumed. -/
theorem storeLines_sl_fold (data : List Byte) (r : Rdr) (c : Nat)
    (flds : List Byte) (bl : List (List Byte)) (term rest : List Byte)
    (hsl : r.slicer = true)
    (hix : r.idx = (c : Int))
    (hfc : flds.length ≤ c)
    (hPre : data.drop (c - flds.length) = flds ++ (bl.flatten ++ (term ++ rest)))
    (hhl : ∀ l ∈ bl, idxNL l = some (l.length - 1) ∧ 4 ≤ l.length)
    (hti : idxNL term = some (term.length - 1))
    (htl : term.length ≤ 2) :
    readerStoreLines data r flds true =
      ((flds ++ (bl.flatten ++ term), none),
       { r with idx := ((c + (bl.flatten ++ term).length : Nat) : Int),
                sz := r.sz - (((bl.flatten ++ term).length : Nat) : Int) }) := by
  have htne : term ≠ [] := by
    intro hc
    rw [hc] at hti
    cases hti
  have htlen : 1 ≤ term.length := by
    cases term with
    | nil => exact absurd rfl htne
    | cons a as => simp
  have hP : data.drop c = bl.flatten ++ (term ++ rest) := by
    have hdd : data.drop c = (data.drop (c - flds.length)).drop flds.length := by
      rw [List.drop_drop]
      congr 1
      omega
    rw [hdd, hPre, List.drop_left]
  have hibl : indexBlankLine (data.drop ((c : Int)).toNat) =
      some (bl.flatten ++ term).length := by
    rw [show ((c : Int)).toNat = c by omega, hP]
    exact indexBlankLine_lines bl term rest hhl hti htl
  have hscan : storeScanSl data (c : Int) = some (bl.flatten ++ term).length :=
    storeScanSl_some (by omega) hibl
  have hclen : (c - flds.length) +
      (flds.length + (bl.flatten.length + (term.length + rest.length))) ≤ data.length := by
    have h2 := congrArg List.length hPre
    simp only [List.length_drop, List.length_append] at h2
    have hc : c - flds.length ≤ data.length := by
      by_contra hcc
      have hd : data.drop (c - flds.length) = [] := List.drop_eq_nil_of_le (by omega)
      rw [hd] at hPre
      have := congrArg List.length hPre
      simp only [List.length_nil, List.length_append] at this
      omega
    omega
  have hstep : readerStoreLines data r flds true =
      (match slicerSlice data (r.idx - ((flds.length : Nat) : Int))
          ((r.idx + (((bl.flatten ++ term).length : Nat) : Int) -
            (r.idx - ((flds.length : Nat) : Int))).toNat) with
       | (slc, er) =>
         ((slc, if er = true then some Err.eof else none),
          { r with idx := r.idx + (((bl.flatten ++ term).length : Nat) : Int),
                   sz := if true = true then
                           r.sz - (((bl.flatten ++ term).length : Nat) : Int)
                         else r.sz })) := by
    unfold readerStoreLines
    rw [hsl, hix, hscan]
    rfl
  rw [hstep, hix]
  have harg : ((c : Int) + (((bl.flatten ++ term).length : Nat) : Int) -
      ((c : Int) - ((flds.length : Nat) : Int))).toNat =
      flds.length + (bl.flatten ++ term).length := by
    omega
  rw [harg]
  have hslice : slicerSlice data ((c : Int) - ((flds.length : Nat) : Int))
      (flds.length + (bl.flatten ++ term).length) =
      (flds ++ (bl.flatten ++ term), false) := by
    unfold slicerSlice
    rw [if_neg (by omega)]
    rw [show (((c : Int) - ((flds.length : Nat) : Int))).toNat = c - flds.length by omega]
    rw [hPre]
    rw [show flds ++ (bl.flatten ++ (term ++ rest)) =
      (flds ++ (bl.flatten ++ term)) ++ rest by simp [List.append_assoc]]
    rw [show flds.length + (bl.flatten ++ term).length =
      (flds ++ (bl.flatten ++ term)).length by simp [List.length_append]]
    rw [List.take_left]
    have hd : (decide (c - flds.length + (flds ++ (bl.flatten ++ term)).length
        > data.length)) = false := by
      simp only [decide_eq_false_iff_not, not_lt, List.length_append]
      omega
    rw [hd]
  rw [hslice]
  have hidx2 : (c : Int) + (((bl.flatten ++ term).length : Nat) : Int) =
      ((c + (bl.flatten ++ term).length : Nat) : Int) := by
    omega
  rw [hidx2]
  rfl

def c8flds : List Byte := S "WARC-Type: response\n"

def c8bl : List (List Byte) := [S "HTTP/1.1 200 OK\n", S "Content-Type: text/html\n"]

def c8cpay : List Byte := S "HTTP/1.1 200 OK\nab\nContent-Type: text/html\n\nrest"

def c8cdata : List Byte := c8flds ++ c8cpay

def c8crs : Rdr := ⟨false, 20, 0, 0, 10⟩

def c8crl : Rdr := ⟨true, 0, 20, 0, 10⟩

set_option maxRecDepth 8000 in
/-- C8 counterexample: the same `storeLines(i, true)` call on the same
response payload — whose header block contains the 3-raw-byte line
"ab\n" (2 content bytes plus its newline) — consumes 44 bytes through
the blank-line terminator in streaming mode (the raw-length-< 3 rule
keeps "ab\n") but only 19 bytes in addressable mode (the
content-length-< 3 rule of `indexBlankLine` treats "ab" as the
terminator), so the two modes return different blocks, shrink `sz` by
different amounts, and only the streaming block's field map contains
the Content-Type pair. -/
theorem slicer_fold_stops_early :
    ((readerStoreLines c8cdata c8crs c8flds true).1.1 = c8flds ++ c8cpay.take 44 ∧
     (readerStoreLines c8cdata c8crs c8flds true).2.sz = 10 - 44 ∧
     c8cpay.take 44 = S "HTTP/1.1 200 OK\nab\nContent-Type: text/html\n\n" ∧
     lookupAllVals (pairsOf (readerStoreLines c8cdata c8crs c8flds true).1.1)
       "Content-Type" = ["text/html"]) ∧
    ((readerStoreLines c8cdata c8crl c8flds true).1.1 = c8flds ++ c8cpay.take 19 ∧
     (readerStoreLines c8cdata c8crl c8flds true).2.sz = 10 - 19 ∧
     c8cpay.take 19 = S "HTTP/1.1 200 OK\nab\n" ∧
     lookupAllVals (pairsOf (readerStoreLines c8cdata c8crl c8flds true).1.1)
       "Content-Type" = []) := by
  exact ⟨⟨rfl, rfl, rfl, rfl⟩, rfl, rfl, rfl, rfl⟩

/-- C8 (corrected): the transport-header fold step of `nextPayload` —
the `storeLines(i, true)` call on a reader positioned at a response
payload whose header block is a list `bl` of full lines followed by a
short blank-line terminator `term` — behaves the same in both modes
only under the stronger proviso that every header line has raw length
at least 4 (at least 3 content bytes before its newline) and the
terminator raw length at most 2 (at most 1 content byte): then both the
streaming fold (whole-line scan, raw length < 3 terminator rule) and
the addressable fold (`indexBlankLine` scan, content length < 3
terminator rule, re-slicing from `idx` minus the stored-field count)
consume exactly the payload bytes through the terminator, append them
to the stored field block, shrink `sz` by their count, and the consumed
bytes minus the terminator decode via the line-folding `getLines`
iterator into exactly the key/value pairs appended to the record's
field map.  (The spec's unqualified claim, with header lines of raw
length exactly 3 allowed, holds only for the streaming fold:
`slicer_fold_stops_early`.) -/
theorem storeLines_fold_step (data : List Byte) (rs rl : Rdr) (c : Nat)
    (flds : List Byte) (bl : List (List Byte)) (term rest : List Byte)
    (hs1 : rs.slicer = false)
    (hs2 : rs.pos = c)
    (hl1 : rl.slicer = true)
    (hl2 : rl.idx = (c : Int))
    (hfc : flds.length ≤ c)
    (hPre : data.drop (c - flds.length) = flds ++ (bl.flatten ++ (term ++ rest)))
    (hbl : ∀ l ∈ bl, 4 ≤ l.length ∧ idxNL l = some (l.length - 1) ∧
           l.getLast? = some 10)
    (hblne : bl ≠ [])
    (htl : term.length ≤ 2)
    (hti : idxNL term = some (term.length - 1))
    (hfne : flds ≠ [])
    (hflast : flds.getLast? = some 10)
    (hBh32 : (bl.flatten ++ term).head? ≠ some 32)
    (hBh9 : (bl.flatten ++ term).head? ≠ some 9)
    (hth32 : term.head? ≠ some 32)
    (hth9 : term.head? ≠ some 9)
    (hcolon : ¬ 58 ∈ term) :
    readerStoreLines data rs flds true =
      ((flds ++ (bl.flatten ++ term), none),
       { rs with pos := c + (bl.flatten ++ term).length,
                 sz := rs.sz - ((bl.flatten ++ term).length : Int) }) ∧
    readerStoreLines data rl flds true =
      ((flds ++ (bl.flatten ++ term), none),
       { rl with idx := ((c + (bl.flatten ++ term).length : Nat) : Int),
                 sz := rl.sz - (((bl.flatten ++ term).length : Nat) : Int) }) ∧
    pairsOf (flds ++ (bl.flatten ++ term)) =
      pairsOf flds ++ pairsOf bl.flatten := by
  have hlnn : ∀ l ∈ bl, l ≠ [] := by
    intro l hl hc
    have := (hbl l hl).1
    rw [hc] at this
    simp at this
  have hfl10 := flatten_last10 hblne
    (fun l hl => ⟨hlnn l hl, (hbl l hl).2.2⟩)
  have htne : term ≠ [] := by
    intro hc
    rw [hc] at hti
    cases hti
  have hP : data.drop c = bl.flatten ++ (term ++ rest) := by
    have hdd : data.drop c = (data.drop (c - flds.length)).drop flds.length := by
      rw [List.drop_drop]
      congr 1
      omega
    rw [hdd, hPre, List.drop_left]
  refine ⟨?_, ?_, ?_⟩
  · have hPs : data.drop rs.pos = bl.flatten ++ (term ++ rest) := by
      rw [hs2]
      exact hP
    have hfuel : bl.length + 1 ≤ data.length + 1 := by
      have h1 : bl.length ≤ bl.flatten.length := flatten_len_ge hlnn
      have h2 := congrArg List.length hPs
      simp only [List.length_drop, List.length_append] at h2
      omega
    have hB := stStLoop_lines data bl (data.length + 1) rs.pos [] term rest hPs
      (fun l hl => ⟨by have := (hbl l hl).1; omega, (hbl l hl).2.1⟩)
      (by omega) hti hfuel
    unfold readerStoreLines
    rw [hs1, hB, hs2]
    rfl
  · exact storeLines_sl_fold data rl c flds bl term rest hl1 hl2 hfc hPre
      (fun l hl => ⟨(hbl l hl).2.1, (hbl l hl).1⟩) hti htl
  · have hBne : bl.flatten ++ term ≠ [] := by
      intro hc
      rw [List.append_eq_nil] at hc
      exact htne hc.2
    have hBh : ∀ a, (bl.flatten ++ term).head? = some a → a ≠ 32 ∧ a ≠ 9 := by
      intro a hc
      constructor
      · intro h
        subst h
        exact hBh32 hc
      · intro h
        subst h
        exact hBh9 hc
    have hth : ∀ a, term.head? = some a → a ≠ 32 ∧ a ≠ 9 := by
      intro a hc
      constructor
      · intro h
        subst h
        exact hth32 hc
      · intro h
        subst h
        exact hth9 hc
    rw [pairsOf_append hfne hflast hBne hBh]
    rw [pairsOf_append hfl10.1 hfl10.2 htne hth]
    rw [pairsOf_term hti hcolon]
    rw [List.append_nil]

def c8wdata : List Byte := c8flds ++ (c8bl.flatten ++ (S "\n" ++ S "hello"))

def c8wrs : Rdr := ⟨false, 20, 0, 0, 2⟩

def c8wrl : Rdr := ⟨true, 0, 20, 0, 2⟩

set_option maxRecDepth 8000 in
theorem storeLines_fold_step_witness :
    readerStoreLines c8wdata c8wrs c8flds true =
      ((c8flds ++ (c8bl.flatten ++ S "\n"), none),
       { c8wrs with pos := 20 + (c8bl.flatten ++ S "\n").length,
                    sz := c8wrs.sz - (((c8bl.flatten ++ S "\n").length : Nat) : Int) }) ∧
    readerStoreLines c8wdata c8wrl c8flds true =
      ((c8flds ++ (c8bl.flatten ++ S "\n"), none),
       { c8wrl with idx := ((20 + (c8bl.flatten ++ S "\n").length : Nat) : Int),
                    sz := c8wrl.sz - (((c8bl.flatten ++ S "\n").length : Nat) : Int) }) ∧
    pairsOf (c8flds ++ (c8bl.flatten ++ S "\n")) =
      pairsOf c8flds ++ pairsOf c8bl.flatten :=
  storeLines_fold_step c8wdata c8wrs c8wrl 20 c8flds c8bl (S "\n") (S "hello")
    (by decide) (by decide) (by decide) (by decide) (by decide) (by decide)
    (by decide) (by decide) (by decide) (by decide) (by decide) (by decide)
    (by decide) (by decide) (by decide) (by decide) (by decide)
